import Mathlib

/-!
# Verification of the sixpaths_kv single-node durable store core

A shallow embedding, over `List Nat` byte strings and explicit state
records, of the core of the `sixpaths_kv` repository:

* the WAL frame codec (`Encode` / `Decode` in `internal/sixpaths_kvs/wal.go`),
* the WAL file operations (`NewWAL`, `Append`, `Close`, `readFrameAt`,
  `ReplayAll` in the same file),
* the store state machine (`Store.Apply` and its older `cmd/apply.go`
  snapshot, `Store` / `Dedup` from `store.go`),
* the node serialization point (`OpenNode`, `Exec`, `Close`).

Bytes are naturals (with `< 256` well-formedness where it matters),
Go's fixed-width unsigned integers are naturals with explicit `% 2 ^ w`
at the points where the Go code performs a narrowing conversion, and
fallible Go functions return `Except`/`Option` values.  The file system
is modelled as the byte content of the single WAL file; `os.File.ReadAt`
is modelled by its documented contract (it fills the buffer completely
or returns a non-`nil` error, `io.EOF` at end of file).
-/

set_option maxHeartbeats 1600000
set_option maxRecDepth 100000

namespace SixpathsKV

/-! ## Big-endian byte encoding (`encoding/binary` BigEndian) -/

/-- `beBytes k n` is the big-endian `k`-byte encoding of `n % 256 ^ k`,
modelling `binary.BigEndian.AppendUintXX` (which truncates its argument
to the target width, as Go's integer conversion does). -/
def beBytes : Nat → Nat → List Nat
  | 0, _ => []
  | k + 1, n => beBytes k (n / 256) ++ [n % 256]

/-- `beToNat l` reads a big-endian byte string, modelling
`binary.BigEndian.UintXX`. -/
def beToNat (l : List Nat) : Nat := l.foldl (fun a b => 256 * a + b) 0

/-! ## CRC-32 (IEEE), modelling `hash/crc32.ChecksumIEEE`

`hash/crc32` uses a lookup table; the table-driven loop computes exactly
the bitwise reflected CRC with polynomial `0xEDB88320`, initial value
`0xFFFFFFFF` and final complement, which is what we embed. -/

/-- The bit-reversed CRC-32 (IEEE) polynomial `0xEDB88320`. -/
def crcPoly : Nat := 3988292384

/-- One bit of the CRC computation: shift right, reducing by the
polynomial when the low bit is set. -/
def crcStep (c : Nat) : Nat := if c % 2 = 1 then (c / 2) ^^^ crcPoly else c / 2

/-- One byte of the CRC computation: XOR the byte in, then run 8 bit
steps. -/
def crcUpdateByte (c b : Nat) : Nat := crcStep^[8] (c ^^^ b)

/-- CRC-32 (IEEE) of a byte string: initial value `0xFFFFFFFF`, final
complement (`^crc` in Go, i.e. XOR with `0xFFFFFFFF` on `uint32`). -/
def crc32 (data : List Nat) : Nat := 4294967295 ^^^ data.foldl crcUpdateByte 4294967295

/-! ## Data model (`apply.go` / `store.go`)

`Command`, `CommandType`, `ApplyResult`, `validType` are from the
`apply.go` snapshots (identical in both); `Store`, `Dedup`, `NewStore`
from `store.go`.  Go `[]byte` and `string` values are byte lists;
`CommandType` (a `uint8`) is a `Nat`. -/

instance {e a : Type} [DecidableEq e] [DecidableEq a] : DecidableEq (Except e a) := fun
  | .error x, .error y => decidable_of_iff (x = y) (by simp)
  | .error _, .ok _ => .isFalse (by simp)
  | .ok _, .error _ => .isFalse (by simp)
  | .ok x, .ok y => decidable_of_iff (x = y) (by simp)

/-- `CmdPut CommandType = 1`. -/
def CmdPut : Nat := 1

/-- `CmdDelete CommandType = 2`. -/
def CmdDelete : Nat := 2

structure Command where
  Instruct : Nat
  ClientID : List Nat
  Seq : Nat
  Key : List Nat
  Value : List Nat
deriving DecidableEq, Repr

/-- `validType`: the only valid `CommandType` values are Put and Delete. -/
def validType (t : Nat) : Bool := t == CmdPut || t == CmdDelete

structure ApplyResult where
  Success : Bool
  PrevValue : List Nat
  LogIndex : Nat
deriving DecidableEq, Repr

/-- The Go zero value `ApplyResult{}` (a missing-key `dedupMap` lookup
yields `Dedup{}` whose `result` is this). -/
def zeroResult : ApplyResult := ⟨false, [], 0⟩

/-- `Record` (from `wal.go`): what is journaled. -/
structure Record where
  LogIndex : Nat
  Cmd : Command
deriving DecidableEq, Repr

structure Dedup where
  seq : Nat
  result : ApplyResult
deriving DecidableEq, Repr

/-- The Go zero value `Dedup{}`. -/
def zeroDedup : Dedup := ⟨0, zeroResult⟩

/-- `Store`: the key/value map, the `lastlogi` counter and the
per-client dedup map.  Go maps are unordered with unique keys; we model
them by association lists whose operations match Go lookup/assign/delete
observably. -/
structure Store where
  kv : List (List Nat × List Nat)
  lastlogi : Nat
  dedupMap : List (List Nat × Dedup)
deriving DecidableEq, Repr

/-- `NewStore()` (never fails; the Go version returns a nil error). -/
def NewStore : Store := ⟨[], 0, []⟩

/-- Go map lookup `m[k]` with the `, ok` form. -/
def kvGet (m : List (List Nat × List Nat)) (k : List Nat) : Option (List Nat) :=
  match m with
  | [] => none
  | (k', v) :: rest => if k' = k then some v else kvGet rest k

/-- Go map assignment `m[k] = v` (replaces the binding if present). -/
def kvPut (m : List (List Nat × List Nat)) (k v : List Nat) : List (List Nat × List Nat) :=
  match m with
  | [] => [(k, v)]
  | (k', v') :: rest => if k' = k then (k, v) :: rest else (k', v') :: kvPut rest k v

/-- Go `delete(m, k)` (keys are unique, so removing the first binding
is removing the binding). -/
def kvDel (m : List (List Nat × List Nat)) (k : List Nat) : List (List Nat × List Nat) :=
  match m with
  | [] => []
  | (k', v') :: rest => if k' = k then rest else (k', v') :: kvDel rest k

/-- Go map read `dedupMap[c]` without the `, ok` form: a missing key
yields the zero value `Dedup{}`. -/
def dedupGet (m : List (List Nat × Dedup)) (c : List Nat) : Dedup :=
  match m with
  | [] => zeroDedup
  | (c', d) :: rest => if c' = c then d else dedupGet rest c

/-- Error results of `Store.Apply`; each constructor stands for the Go
error string built at the corresponding `return`. -/
inductive ApplyErr where
  /-- "error: new apply request index is not equal to last log index + 1" -/
  | indexMismatch
  /-- "error: value at key in store is already empty; nothing to delete" -/
  | nothingToDelete
  /-- "error: Apply failed, invalid cmd passed." -/
  | invalidCmd
deriving DecidableEq, Repr

/-- The `(ApplyResult, error)` pair returned by Go `Apply`, together
with the store state after the call (Go mutates the receiver). -/
structure ApplyOut where
  res : ApplyResult
  st : Store
  err : Option ApplyErr
deriving DecidableEq, Repr

/-- `Store.Apply` from the current snapshot (`src/unnamed/part_005`,
the one the package tests exercise).  Note: none of the success
branches writes `dedupMap` (the `== TODO: ADD DEDUP UPDATE ====`
comments mark the missing updates), and Delete of an absent key is an
error.  The `append([]byte(nil), ...)` copies are value copies, which
is what immutable lists give us. -/
def Store.Apply (s : Store) (cmd : Command) (logindex : Nat) : ApplyOut :=
  let r : ApplyResult := ⟨false, [], logindex⟩
  if logindex ≠ s.lastlogi + 1 then ⟨r, s, some .indexMismatch⟩
  else if cmd.Seq ≤ (dedupGet s.dedupMap cmd.ClientID).seq then
    -- duplicate: return the previous ApplyResult, mutate nothing
    ⟨(dedupGet s.dedupMap cmd.ClientID).result, s, none⟩
  else if cmd.Instruct = CmdPut then
    match kvGet s.kv cmd.Key with
    | none =>
      ⟨{ r with Success := true },
       { s with kv := kvPut s.kv cmd.Key cmd.Value, lastlogi := logindex }, none⟩
    | some v =>
      ⟨{ r with Success := true, PrevValue := v },
       { s with kv := kvPut s.kv cmd.Key cmd.Value, lastlogi := logindex }, none⟩
  else if cmd.Instruct = CmdDelete then
    match kvGet s.kv cmd.Key with
    | none => ⟨r, s, some .nothingToDelete⟩
    | some v =>
      ⟨{ r with Success := true, PrevValue := v },
       { s with kv := kvDel s.kv cmd.Key, lastlogi := logindex }, none⟩
  else ⟨r, s, some .invalidCmd⟩

/-- `Store.Apply` from the older snapshot `src/cmd/apply.go`: the
duplicate path reads `s.dedupMap[string(cmd.Key)].result` (keyed by the
command KEY, not the client id), the Put branch is a stub, and the
Delete branch does `s.lastlogi += 1`. -/
def Store.applyLegacy (s : Store) (cmd : Command) (logindex : Nat) : ApplyOut :=
  let r : ApplyResult := ⟨false, [], logindex⟩
  if logindex ≠ s.lastlogi + 1 then ⟨r, s, some .indexMismatch⟩
  else if cmd.Seq ≤ (dedupGet s.dedupMap cmd.ClientID).seq then
    -- BUG kept from the source: lookup by string(cmd.Key)
    ⟨(dedupGet s.dedupMap cmd.Key).result, s, none⟩
  else if cmd.Instruct = CmdPut then ⟨r, s, none⟩ -- stub
  else if cmd.Instruct = CmdDelete then
    match kvGet s.kv cmd.Key with
    | none => ⟨r, s, some .nothingToDelete⟩
    | some v =>
      ⟨{ r with Success := true, PrevValue := v },
       { s with kv := kvDel s.kv cmd.Key, lastlogi := s.lastlogi + 1 }, none⟩
  else ⟨r, s, some .invalidCmd⟩

/-! ## WAL frame codec (`wal.go` `Encode` / `Decode`) -/

/-- Error results of `Encode`; each constructor stands for the Go
error string at the corresponding `return`. -/
inductive EncodeErr where
  /-- "invalid Command, neither Put nor Delete" -/
  | invalidCommand
  /-- "invalid ClientID length, exceeds 8 bits" -/
  | clientIDTooLong
  /-- "invalid key, length exceeds 16 bits" -/
  | keyTooLong
  /-- "invalid value, length exceeds 32 bits" -/
  | valueTooLong
  /-- "nil rec" (unreachable: `enc` always holds at least 8 bytes) -/
  | nilRec
deriving DecidableEq, Repr

/-- The `enc` byte slice `Encode` builds before framing it: logIndex,
instruction byte, clientId length byte, clientId, seq, key length, key,
value length, value.  The `% 256` on the two single-byte fields models
Go's `uint8(...)` conversions; the length fields go through
`binary.BigEndian.AppendUintXX`, whose truncation `beBytes` performs. -/
def encPayload (rec : Record) : List Nat :=
  beBytes 8 rec.LogIndex ++ [rec.Cmd.Instruct % 256] ++ [rec.Cmd.ClientID.length % 256]
    ++ rec.Cmd.ClientID ++ beBytes 8 rec.Cmd.Seq ++ beBytes 2 rec.Cmd.Key.length
    ++ rec.Cmd.Key ++ beBytes 4 rec.Cmd.Value.length ++ rec.Cmd.Value

/-- `frameLen := uint32(4 + len(enc))` — the Go conversion to `uint32`
wraps, hence the `% 2 ^ 32`. -/
def frameLenOf (rec : Record) : Nat := (4 + (encPayload rec).length) % 2 ^ 32

/-- The full frame `[u32 frameLen BE][u32 crc32 BE][enc]`. -/
def frameOf (rec : Record) : List Nat :=
  beBytes 4 (frameLenOf rec) ++ beBytes 4 (crc32 (encPayload rec)) ++ encPayload rec

/-- `Encode` from `wal.go`: validate the record fields, then emit the
frame. -/
def Encode (rec : Record) : Except EncodeErr (List Nat) :=
  if ¬ (rec.Cmd.Instruct = CmdPut ∨ rec.Cmd.Instruct = CmdDelete) then .error .invalidCommand
  else if 255 < rec.Cmd.ClientID.length then .error .clientIDTooLong
  else if 65535 < rec.Cmd.Key.length then .error .keyTooLong
  else if 4294967295 < rec.Cmd.Value.length then .error .valueTooLong
  else if encPayload rec = [] then .error .nilRec -- Go's `if enc == nil` check
  else .ok (frameOf rec)

/-- Error results of `Decode`. -/
inductive DecodeErr where
  /-- a Go slice or index expression would have panicked; `Decode`
  never actually returns this (`decode_never_out_of_range`) -/
  | outOfRange
  /-- the `need()` bounds check failed ("payload is too short, ...") -/
  | tooShort
  /-- "wrong Commandtype, expected 1 or 2 but got: %d" -/
  | wrongCommandType
deriving DecidableEq, Repr

/-- The Go slice expression `l[i:j]`, made total by returning
`.error .outOfRange` exactly when Go would panic. -/
def sliceP (l : List Nat) (i j : Nat) : Except DecodeErr (List Nat) :=
  if i ≤ j ∧ j ≤ l.length then .ok ((l.drop i).take (j - i)) else .error .outOfRange

/-- The Go index expression `l[i]`, made total the same way. -/
def elemP (l : List Nat) (i : Nat) : Except DecodeErr Nat :=
  if i < l.length then .ok (l.getD i 0) else .error .outOfRange

/-- `Decode` from `wal.go`: sequentially reads logIndex, instruction,
clientId length, clientId, seq, key length, key, value length and value
off the payload, with a `need()` length check in front of every read.
The running offsets are inlined (`8`, `9`, `10`, `10+cl`, ...), exactly
as `off` evolves in the source; `payload.length - off` is the Go
`len(paycopy)-off` (never truncated, since `off ≤ len` on every path). -/
def Decode (payload : List Nat) : Except DecodeErr Record :=
  if payload.length < 8 then .error .tooShort else
  match sliceP payload 0 8 with
  | .error e => .error e
  | .ok liB =>
  if payload.length - 8 < 1 then .error .tooShort else
  match elemP payload 8 with
  | .error e => .error e
  | .ok instr =>
  if !validType instr then .error .wrongCommandType else
  if payload.length - 9 < 1 then .error .tooShort else
  match elemP payload 9 with
  | .error e => .error e
  | .ok cl =>
  if payload.length - 10 < cl then .error .tooShort else
  match sliceP payload 10 (10 + cl) with
  | .error e => .error e
  | .ok cid =>
  if payload.length - (10 + cl) < 8 then .error .tooShort else
  match sliceP payload (10 + cl) (10 + cl + 8) with
  | .error e => .error e
  | .ok seqB =>
  if payload.length - (18 + cl) < 2 then .error .tooShort else
  match sliceP payload (18 + cl) (18 + cl + 2) with
  | .error e => .error e
  | .ok klB =>
  if payload.length - (20 + cl) < beToNat klB then .error .tooShort else
  match sliceP payload (20 + cl) (20 + cl + beToNat klB) with
  | .error e => .error e
  | .ok key =>
  if payload.length - (20 + cl + beToNat klB) < 4 then .error .tooShort else
  match sliceP payload (20 + cl + beToNat klB) (20 + cl + beToNat klB + 4) with
  | .error e => .error e
  | .ok vlB =>
  if payload.length - (24 + cl + beToNat klB) < beToNat vlB then .error .tooShort else
  match sliceP payload (24 + cl + beToNat klB) (24 + cl + beToNat klB + beToNat vlB) with
  | .error e => .error e
  | .ok val => .ok ⟨beToNat liB, ⟨instr, cid, beToNat seqB, key, val⟩⟩

/-! ## WAL file operations (`wal.go`)

The WAL is modelled by the byte content of its single file plus the
append cursor, the `bufio.Writer` buffer and a closed flag.  `os.File`
operations on a closed file fail with `os.ErrClosed`;
`bufio.Writer.Flush` with an empty buffer returns `nil` without
touching the file. -/

structure WALState where
  file : List Nat   -- on-disk content of `<dataDir>/wal`
  offset : Nat      -- `WAL.offset`
  buf : List Nat    -- bytes in the `bufio.Writer` not yet written through
  closed : Bool     -- whether `f.Close()` has succeeded
deriving DecidableEq, Repr

/-- `var walHeader = []byte("WALv1-BE\x00")`. -/
def walHeader : List Nat := [87, 65, 76, 118, 49, 45, 66, 69, 0]

/-- Errors of the WAL file operations. -/
inductive WalErr where
  | enc (e : EncodeErr)  -- `Append`: `Encode` failed
  | fileClosed           -- an `os.File` operation on a closed file (`os.ErrClosed`)
  | shortHeader          -- `NewWAL`: `io.ReadFull(f, hdr)` failed
  | badHeader            -- `NewWAL`: "bad WAL header: expected %q"
deriving DecidableEq, Repr

/-- `NewWAL` on an existing (or empty) file content: write the header
into an empty file, otherwise verify it; `offset` ends up at the file
size either way.  Directory creation and `os.OpenFile` failures are
file-system errors outside the model. -/
def NewWAL (file : List Nat) : Except WalErr WALState :=
  if file.length = 0 then .ok ⟨walHeader, 9, [], false⟩
  else if file.length < 9 then .error .shortHeader
  else if file.take 9 ≠ walHeader then .error .badHeader
  else .ok ⟨file, file.length, [], false⟩

/-- `bufio.Writer.Flush`: nothing to do on an empty buffer; otherwise
write the buffered bytes through (failing on a closed file). -/
def bwFlush (w : WALState) : Except WalErr WALState :=
  if w.buf = [] then .ok w
  else if w.closed then .error .fileClosed
  else .ok { w with file := w.file ++ w.buf, buf := [] }

/-- `f.Sync()`. -/
def fSync (w : WALState) : Except WalErr WALState :=
  if w.closed then .error .fileClosed else .ok w

/-- `WAL.Close`: flush, sync, close.  Each of the three steps fails on
an already-closed file (except a flush of an empty buffer, which is a
no-op). -/
def WAL.Close (w : WALState) : Except WalErr WALState :=
  match bwFlush w with
  | .error e => .error e
  | .ok w1 =>
    match fSync w1 with
    | .error e => .error e
    | .ok w2 => if w2.closed then .error .fileClosed else .ok { w2 with closed := true }

/-- `WAL.Append`: encode, buffer the frame (`bw.Write`), flush, sync,
and only then advance `offset` by the frame size. -/
def WAL.Append (w : WALState) (rec : Record) : Except WalErr WALState :=
  match Encode rec with
  | .error e => .error (.enc e)
  | .ok fr =>
    match bwFlush { w with buf := w.buf ++ fr } with
    | .error e => .error e
    | .ok w2 =>
      match fSync w2 with
      | .error e => .error e
      | .ok w3 => .ok { w3 with offset := w3.offset + fr.length }

/-- Error results of `readFrameAt`. -/
inductive FrameErr where
  /-- `io.EOF`: the 4-byte `frameLen` read came up short.  NOTE:
  `os.File.ReadAt` returns a non-nil error (`io.EOF` at end of file)
  whenever it reads fewer bytes than requested, so the `err != nil`
  branch catches every short read and the source's later `n < 4 ⇒
  io.ErrUnexpectedEOF` branch is unreachable. -/
  | eofHeader
  /-- `errCorrupt`: "bad framelen" (`frameLen < 4`) -/
  | badFrameLen
  /-- `errCorrupt`: "frameLen overflows" (`frameLen > 2^30`) -/
  | frameLenOverflow
  /-- `io.ErrUnexpectedEOF`: the body read came up short -/
  | shortBody
  /-- `errCorrupt`: stored CRC differs from the recomputed CRC -/
  | crcMismatch
deriving DecidableEq, Repr

/-- `readFrameAt`: read and sanity-check `frameLen`, read the body,
check the CRC, and return the payload together with the number of
bytes consumed. -/
def readFrameAt (file : List Nat) (off : Nat) : Except FrameErr (List Nat × Nat) :=
  if file.length < off + 4 then .error .eofHeader
  else
    let frameLen := beToNat ((file.drop off).take 4)
    if frameLen < 4 then .error .badFrameLen
    else if 2 ^ 30 < frameLen then .error .frameLenOverflow
    else if file.length < off + 4 + frameLen then .error .shortBody
    else
      let body := (file.drop (off + 4)).take frameLen
      if crc32 (body.drop 4) ≠ beToNat (body.take 4) then .error .crcMismatch
      else .ok (body.drop 4, 4 + frameLen)

/-- The `ReplayAll` loop.  Returns `(out, lastIndex, repairNeeded,
lastGood)`.  `lastGood` always equals the offset at which the loop
stopped (the source updates `lastGood := off` exactly when it advances
`off`).  A clean `io.EOF` on the `frameLen` read clears `repairNeeded`;
every other stop leaves it set. -/
def replayLoop (file : List Nat) (off : Nat) (acc : List Record) (lastIdx : Nat) :
    List Record × Nat × Bool × Nat :=
  match h : readFrameAt file off with
  | .error .eofHeader => (acc, lastIdx, false, off)
  | .error _ => (acc, lastIdx, true, off)
  | .ok (enc, n) =>
    match Decode enc with
    | .error _ => (acc, lastIdx, true, off)
    | .ok rec => replayLoop file (off + n) (acc ++ [rec]) rec.LogIndex
termination_by file.length - off
decreasing_by
  simp only [readFrameAt] at h
  split at h
  · exact absurd h (by simp)
  · split at h
    · exact absurd h (by simp)
    · split at h
      · exact absurd h (by simp)
      · split at h
        · exact absurd h (by simp)
        · split at h
          · exact absurd h (by simp)
          · simp only [Except.ok.injEq, Prod.mk.injEq] at h
            omega

/-- `WAL.ReplayAll`: run the loop from offset 9 (`hdrLen`); if a repair
is needed, truncate to `lastGood` and fsync; either way reset `offset`
and the write buffer to `lastGood`. -/
def WAL.ReplayAll (w : WALState) : List Record × Nat × WALState :=
  match replayLoop w.file 9 [] 0 with
  | (recs, lastIndex, true, lastGood) =>
    (recs, lastIndex, { w with file := w.file.take lastGood, offset := lastGood, buf := [] })
  | (recs, lastIndex, false, lastGood) =>
    (recs, lastIndex, { w with offset := lastGood, buf := [] })

/-! ## Node (`node.go`) -/

structure Node where
  wal : WALState
  store : Store
  last : Nat
deriving DecidableEq, Repr

/-- Errors surfaced by the node operations. -/
inductive NodeErr where
  | walOpen (e : WalErr)       -- "error: OpenNode() failure, unable to create WAL: %w"
  | replayApply (e : ApplyErr) -- "error Applying: %w"
  | invalidCommand             -- Exec: "error: invalid command"
  | append (e : WalErr)        -- Exec: `wal.Append` failed
  | apply (e : ApplyErr)       -- Exec: `store.Apply` failed
deriving DecidableEq, Repr

/-- The replay loop of `OpenNode`: `Store.Apply` each recovered record
in order, aborting on the first failure. -/
def applyAll (st : Store) (recs : List Record) : Except ApplyErr Store :=
  match recs with
  | [] => .ok st
  | r :: rest =>
    let o := st.Apply r.Cmd r.LogIndex
    match o.err with
    | some e => .error e
    | none => applyAll o.st rest

/-- `OpenNode` on the WAL file content found in `dataDir`: open the
WAL, replay it, apply every recovered record to a fresh store.
Directory handling (`os.Stat` / `os.MkdirAll`) and the `nwal.Close()`
calls on the failure paths are outside the model (a failed open yields
no node). -/
def OpenNode (file : List Nat) : Except NodeErr Node :=
  match NewWAL file with
  | .error e => .error (.walOpen e)
  | .ok w =>
    match WAL.ReplayAll w with
    | (recs, lastidx, w2) =>
      match applyAll NewStore recs with
      | .error e => .error (.replayApply e)
      | .ok st => .ok ⟨w2, st, lastidx⟩

/-- `Node.Close` delegates to `WAL.Close`.  (The Go source first
short-circuits on a nil node or nil WAL pointer; a modelled node always
owns a WAL.) -/
def Node.Close (n : Node) : Except WalErr Node :=
  match WAL.Close n.wal with
  | .error e => .error e
  | .ok w => .ok { n with wal := w }

/-- `Node.Exec`: dedup peek against the store's dedup map (returning
the stored result without touching the log on a hit), validate the
command type, append the record at `last + 1`, apply it, and advance
`last` only if the apply succeeded. -/
def Node.Exec (n : Node) (cmd : Command) : ApplyResult × Node × Option NodeErr :=
  if (dedupGet n.store.dedupMap cmd.ClientID).seq ≥ cmd.Seq then
    ((dedupGet n.store.dedupMap cmd.ClientID).result, n, none)
  else if ¬ validType cmd.Instruct then (zeroResult, n, some .invalidCommand)
  else
    let nextIdx := n.last + 1
    match WAL.Append n.wal ⟨nextIdx, cmd⟩ with
    | .error e => (zeroResult, n, some (.append e))
    | .ok w2 =>
      let o := n.store.Apply cmd nextIdx
      match o.err with
      | some e => (o.res, ⟨w2, o.st, n.last⟩, some (.apply e))
      | none => (o.res, ⟨w2, o.st, nextIdx⟩, none)

/-- The state of a node freshly opened on an empty data directory
(`OpenNode` over an absent WAL file). -/
def freshNode : Node := ⟨⟨walHeader, 9, [], false⟩, NewStore, 0⟩

/-- Run a list of commands through `Node.Exec`; the boolean is `true`
iff every single `Exec` returned a nil error. -/
def execAll (n : Node) (cmds : List Command) : Node × Bool :=
  match cmds with
  | [] => (n, true)
  | c :: rest =>
    match n.Exec c with
    | (_, n', e) =>
      let (nf, allok) := execAll n' rest
      (nf, e.isNone && allok)

/-! ## Auxiliary definitions for the statements -/

/-- Flip bit `j` of byte `k` of a byte string. -/
def flipBit (l : List Nat) (k j : Nat) : List Nat :=
  l.take k ++ [l.getD k 0 ^^^ 2 ^ j] ++ l.drop (k + 1)

/-- The byte string formed by the frames of a list of records, in
order. -/
def framesConcat : List Record → List Nat
  | [] => []
  | r :: rest => frameOf r ++ framesConcat rest

/-- The running `lastIndex` a replay of `recs` leaves behind, starting
from `li` (the `LogIndex` of the last record, or `li` when there is
none). -/
def lastIdxOf (li : Nat) (recs : List Record) : Nat := recs.foldl (fun _ r => r.LogIndex) li

/-- The records `Exec` journals for a command list, indexed
consecutively from `base + 1` — `Exec` stamps each command with
`last + 1`. -/
def recsOf (base : Nat) : List Command → List Record
  | [] => []
  | c :: rest => ⟨base + 1, c⟩ :: recsOf (base + 1) rest

/-- Well-formedness of a record as a frame: the validation bounds of
`Encode`, the Go typing bounds (`uint64` fields, `byte` elements), and
the replay sanity cap on the resulting `frameLen`. -/
def recFrameOk (rec : Record) : Prop :=
  (rec.Cmd.Instruct = CmdPut ∨ rec.Cmd.Instruct = CmdDelete) ∧
  rec.Cmd.ClientID.length ≤ 255 ∧ rec.Cmd.Key.length ≤ 65535 ∧
  (∀ b ∈ rec.Cmd.ClientID, b < 256) ∧ (∀ b ∈ rec.Cmd.Key, b < 256) ∧
  (∀ b ∈ rec.Cmd.Value, b < 256) ∧
  rec.LogIndex < 2 ^ 64 ∧ rec.Cmd.Seq < 2 ^ 64 ∧
  28 + rec.Cmd.ClientID.length + rec.Cmd.Key.length + rec.Cmd.Value.length ≤ 2 ^ 30

/-- A valid command in the sense of the data-model section of the
design (`seq` nonzero) together with the Go typing bounds
(`seq : uint64`, byte-string contents) and the frame-size cap that
keeps its frame replayable. -/
def wfCommand (c : Command) : Prop :=
  1 ≤ c.Seq ∧ c.Seq < 2 ^ 64 ∧
  (∀ b ∈ c.ClientID, b < 256) ∧ (∀ b ∈ c.Key, b < 256) ∧ (∀ b ∈ c.Value, b < 256) ∧
  28 + c.ClientID.length + c.Key.length + c.Value.length ≤ 2 ^ 30

/-- The frame of `rec` with bit `j` of byte `k` of its CRC-plus-payload
body flipped (`k < 4` hits the stored CRC, `k ≥ 4` the payload); the
`frameLen` field is left intact. -/
def corruptFrame (rec : Record) (k j : Nat) : List Nat :=
  beBytes 4 (frameLenOf rec)
    ++ flipBit (beBytes 4 (crc32 (encPayload rec)) ++ encPayload rec) k j

/-- Run a list of commands through `Node.Exec`, keeping all
intermediate results; used to state P2-style properties.  Returns the
final node and the list of per-command `(result, error?)` pairs. -/
def execAllOut (n : Node) (cmds : List Command) : Node × List (ApplyResult × Option NodeErr) :=
  match cmds with
  | [] => (n, [])
  | c :: rest =>
    match n.Exec c with
    | (r, n', e) =>
      let (nf, outs) := execAllOut n' rest
      (nf, (r, e) :: outs)

/-- The state of a store after applying a list of records in order
(ignoring errors; used only where every apply is known to succeed). -/
def applyFold (st : Store) (recs : List Record) : Store :=
  recs.foldl (fun s r => (s.Apply r.Cmd r.LogIndex).st) st

/-- The running invariant of a node during a crash-free run: the dedup
map stays empty (`Apply` never writes it), the WAL is open with an
empty write buffer, and the store counter tracks the node counter. -/
def nodeInv (n : Node) : Prop :=
  n.store.dedupMap = [] ∧ n.wal.closed = false ∧ n.wal.buf = [] ∧ n.store.lastlogi = n.last

instance (rec : Record) : Decidable (recFrameOk rec) := by
  unfold recFrameOk
  infer_instance

instance (c : Command) : Decidable (wfCommand c) := by
  unfold wfCommand
  infer_instance

instance (n : Node) : Decidable (nodeInv n) := by
  unfold nodeInv
  infer_instance

/-! ### Concrete example data (used by counterexamples and witnesses) -/

/-- `Put client="a" seq=1 key="k" value="v"`. -/
def putCmdA : Command := ⟨1, [97], 1, [107], [118]⟩

/-- The record `Exec` journals for `putCmdA` on a fresh node. -/
def recPutA : Record := ⟨1, putCmdA⟩

/-- `Delete client="a" seq=2 key="k"` at log index 2. -/
def recDelB : Record := ⟨2, ⟨2, [97], 2, [107], []⟩⟩

/-- `Delete client="c" seq=1 key="x"` — a valid command whose key is
absent from a fresh store. -/
def delMissCmd : Command := ⟨2, [99], 1, [120], []⟩

/-- A record whose value is just long enough that `4 + len(enc)`
overflows `uint32`: the `frameLen` field wraps to `0`. -/
def bigValRec : Record := ⟨1, ⟨1, [99], 1, [107], List.replicate (2 ^ 32 - 30) 0⟩⟩

/-- A record whose value has length `2 ^ 30`: it passes `Encode`
validation but its `frameLen` exceeds the replay sanity cap. -/
def bigValRec8 : Record := ⟨1, ⟨1, [99], 1, [107], List.replicate (2 ^ 30) 0⟩⟩

/-- A store holding a dedup entry `(lastSeq 5, result ⟨true, [7], 3⟩)`
for client `"c"` and nothing for key `"k"`. -/
def c4Store : Store := ⟨[], 0, [([99], ⟨5, ⟨true, [7], 3⟩⟩)]⟩

/-- A duplicate command from client `"c"` (`seq 4 ≤ lastSeq 5`) whose
key `"k"` has no dedup entry. -/
def c4Cmd : Command := ⟨1, [99], 4, [107], [118]⟩

/-- A WAL whose file holds one good frame, a corrupted second frame
(payload bit flip at body byte 4, bit 0), freshly opened. -/
def corruptWitnessWal : WALState :=
  ⟨walHeader ++ (framesConcat [recPutA] ++ corruptFrame recDelB 4 0),
   (walHeader ++ (framesConcat [recPutA] ++ corruptFrame recDelB 4 0)).length, [], false⟩

/-- A WAL whose file holds one good frame followed by a 3-byte torn
tail, freshly opened. -/
def shortTailWal : WALState :=
  ⟨walHeader ++ (framesConcat [recPutA] ++ [1, 2, 3]),
   (walHeader ++ (framesConcat [recPutA] ++ [1, 2, 3])).length, [], false⟩

/-! ## Lemmas: big-endian encoding -/

@[simp] theorem length_beBytes (k n : Nat) : (beBytes k n).length = k := by
  induction k generalizing n with
  | zero => rfl
  | succ k ih => simp [beBytes, ih]

theorem beBytes_mem_lt (k n : Nat) : ∀ b ∈ beBytes k n, b < 256 := by
  induction k generalizing n with
  | zero => simp [beBytes]
  | succ k ih =>
    intro b hb
    simp only [beBytes, List.mem_append, List.mem_singleton] at hb
    rcases hb with h | h
    · exact ih _ b h
    · subst h; exact Nat.mod_lt _ (by norm_num)

@[simp] theorem beToNat_singleton (x : Nat) : beToNat [x] = x := by simp [beToNat]

theorem beToNat_foldl (l : List Nat) (a : Nat) :
    l.foldl (fun a b => 256 * a + b) a = a * 256 ^ l.length + beToNat l := by
  induction l generalizing a with
  | nil => simp [beToNat]
  | cons x xs ih =>
    have e1 : List.foldl (fun a b => 256 * a + b) a (x :: xs)
        = List.foldl (fun a b => 256 * a + b) (256 * a + x) xs := rfl
    have e2 : beToNat (x :: xs) = List.foldl (fun a b => 256 * a + b) x xs := by
      simp [beToNat]
    rw [e1, ih, e2, ih, List.length_cons]
    ring

theorem beToNat_append (l1 l2 : List Nat) :
    beToNat (l1 ++ l2) = beToNat l1 * 256 ^ l2.length + beToNat l2 := by
  unfold beToNat
  rw [List.foldl_append]
  exact beToNat_foldl l2 _

theorem beToNat_lt (l : List Nat) (h : ∀ b ∈ l, b < 256) : beToNat l < 256 ^ l.length := by
  induction l with
  | nil => simp [beToNat]
  | cons x xs ih =>
    have hx : x < 256 := h x (by simp)
    have hxs : beToNat xs < 256 ^ xs.length := ih fun b hb => h b (by simp [hb])
    have hcons : beToNat (x :: xs) = x * 256 ^ xs.length + beToNat xs := by
      simpa using beToNat_append [x] xs
    rw [hcons, List.length_cons, pow_succ]
    nlinarith

theorem beToNat_beBytes (k n : Nat) : beToNat (beBytes k n) = n % 256 ^ k := by
  induction k generalizing n with
  | zero => simp [beBytes, beToNat, Nat.mod_one]
  | succ k ih =>
    rw [beBytes, beToNat_append, ih]
    simp only [List.length_singleton, beToNat_singleton, pow_one]
    have h2 : (256 : Nat) ^ (k + 1) = 256 * 256 ^ k := by ring
    rw [h2, Nat.mod_mul]
    ring

theorem beToNat_beBytes_of_lt {k n : Nat} (h : n < 256 ^ k) : beToNat (beBytes k n) = n := by
  rw [beToNat_beBytes, Nat.mod_eq_of_lt h]

theorem beToNat_inj (l1 l2 : List Nat) (hlen : l1.length = l2.length)
    (h1 : ∀ b ∈ l1, b < 256) (h2 : ∀ b ∈ l2, b < 256)
    (h : beToNat l1 = beToNat l2) : l1 = l2 := by
  induction l1 generalizing l2 with
  | nil => cases l2 with
    | nil => rfl
    | cons y ys => simp at hlen
  | cons x xs ih =>
    cases l2 with
    | nil => simp at hlen
    | cons y ys =>
      have hlen' : xs.length = ys.length := by simpa using hlen
      have hx : x < 256 := h1 x (by simp)
      have hy : y < 256 := h2 y (by simp)
      have hxs : ∀ b ∈ xs, b < 256 := fun b hb => h1 b (by simp [hb])
      have hys : ∀ b ∈ ys, b < 256 := fun b hb => h2 b (by simp [hb])
      have e1 : beToNat (x :: xs) = x * 256 ^ xs.length + beToNat xs := by
        simpa using beToNat_append [x] xs
      have e2 : beToNat (y :: ys) = y * 256 ^ ys.length + beToNat ys := by
        simpa using beToNat_append [y] ys
      rw [e1, e2, ← hlen'] at h
      have bx : beToNat xs < 256 ^ xs.length := beToNat_lt xs hxs
      have by' : beToNat ys < 256 ^ xs.length := hlen' ▸ beToNat_lt ys hys
      have hxy : x = y := by
        by_contra hne
        rcases Nat.lt_or_ge x y with hlt | hge
        · nlinarith
        · have : y < x := lt_of_le_of_ne hge (Ne.symm hne)
          nlinarith
      subst hxy
      have : beToNat xs = beToNat ys := by omega
      rw [ih ys hlen' hxs hys this]

/-! ## Lemmas: CRC-32

The single-bit error detection property of the CRC rests on three
facts: the bit step is GF(2)-linear (distributes over XOR), it keeps
values below `2 ^ 32`, and it has trivial kernel there. -/

theorem xor_mod_two (x y : Nat) : (x ^^^ y) % 2 = (x + y) % 2 := by
  have h := Nat.testBit_xor x y 0
  simp only [Nat.testBit_zero] at h
  rcases Nat.mod_two_eq_zero_or_one x with hx | hx <;>
    rcases Nat.mod_two_eq_zero_or_one y with hy | hy <;>
      simp [hx, hy] at h ⊢ <;> omega

theorem div_two_xor (x y : Nat) : (x ^^^ y) / 2 = x / 2 ^^^ y / 2 := by
  apply Nat.eq_of_testBit_eq
  intro i
  simp [Nat.testBit_div_two, Nat.testBit_xor]

theorem xor_left_comm' (a b c : Nat) : a ^^^ (b ^^^ c) = b ^^^ (a ^^^ c) := by
  rw [← Nat.xor_assoc, Nat.xor_comm a b, Nat.xor_assoc]

theorem crcStep_lt {c : Nat} (h : c < 2 ^ 32) : crcStep c < 2 ^ 32 := by
  unfold crcStep
  split
  · exact Nat.xor_lt_two_pow (by omega) (by norm_num [crcPoly])
  · omega

theorem crcStep_xor (x y : Nat) : crcStep (x ^^^ y) = crcStep x ^^^ crcStep y := by
  unfold crcStep
  have hxy := xor_mod_two x y
  rcases Nat.mod_two_eq_zero_or_one x with hx | hx <;>
    rcases Nat.mod_two_eq_zero_or_one y with hy | hy
  · rw [if_neg (by omega : ¬(x ^^^ y) % 2 = 1), if_neg (by omega : ¬x % 2 = 1),
      if_neg (by omega : ¬y % 2 = 1)]
    exact div_two_xor x y
  · rw [if_pos (by omega : (x ^^^ y) % 2 = 1), if_neg (by omega : ¬x % 2 = 1),
      if_pos hy, div_two_xor, Nat.xor_assoc]
  · rw [if_pos (by omega : (x ^^^ y) % 2 = 1), if_pos hx,
      if_neg (by omega : ¬y % 2 = 1), div_two_xor, Nat.xor_assoc,
      Nat.xor_comm (y / 2) crcPoly, ← Nat.xor_assoc]
  · rw [if_neg (by omega : ¬(x ^^^ y) % 2 = 1), if_pos hx, if_pos hy, div_two_xor,
      Nat.xor_assoc, xor_left_comm' crcPoly (y / 2) crcPoly, Nat.xor_self, Nat.xor_zero]

theorem crcStep_eq_zero {c : Nat} (hlt : c < 2 ^ 32) (h : crcStep c = 0) : c = 0 := by
  unfold crcStep at h
  split at h
  · have h2 : c / 2 = crcPoly := by
      have h3 := congrArg (· ^^^ crcPoly) h
      simpa [Nat.xor_assoc, Nat.xor_self, Nat.xor_zero, Nat.zero_xor] using h3
    simp only [crcPoly] at h2
    omega
  · omega

theorem crcStepIter_lt (m : Nat) {c : Nat} (h : c < 2 ^ 32) : crcStep^[m] c < 2 ^ 32 := by
  induction m generalizing c with
  | zero => simpa using h
  | succ m ih => rw [Function.iterate_succ_apply]; exact ih (crcStep_lt h)

theorem crcStepIter_xor (m x y : Nat) :
    crcStep^[m] (x ^^^ y) = crcStep^[m] x ^^^ crcStep^[m] y := by
  induction m generalizing x y with
  | zero => simp
  | succ m ih => simp only [Function.iterate_succ_apply, crcStep_xor, ih]

theorem crcStepIter_eq_zero (m : Nat) {c : Nat} (hlt : c < 2 ^ 32)
    (h : crcStep^[m] c = 0) : c = 0 := by
  induction m generalizing c with
  | zero => simpa using h
  | succ m ih =>
    rw [Function.iterate_succ_apply] at h
    exact crcStep_eq_zero hlt (ih (crcStep_lt hlt) h)

theorem crcUpdateByte_xor_left (c d b : Nat) :
    crcUpdateByte (c ^^^ d) b = crcUpdateByte c b ^^^ crcStep^[8] d := by
  unfold crcUpdateByte
  rw [Nat.xor_comm c d, Nat.xor_assoc, crcStepIter_xor, Nat.xor_comm]

theorem foldl_crcUpdate_xor (l : List Nat) (c d : Nat) :
    l.foldl crcUpdateByte (c ^^^ d)
      = l.foldl crcUpdateByte c ^^^ crcStep^[8 * l.length] d := by
  induction l generalizing c d with
  | nil => simp
  | cons b bs ih =>
    simp only [List.foldl_cons, List.length_cons]
    rw [crcUpdateByte_xor_left, ih]
    have h8 : 8 * (bs.length + 1) = 8 * bs.length + 8 := by ring
    rw [h8, Function.iterate_add_apply]

/-- Flipping one bit of one byte changes the CRC-32 checksum: the
difference the flip injects into the running CRC is the image of a
single nonzero bit under iterates of the injective bit step, hence
nonzero. -/
theorem crc32_flip_ne (pre post : List Nat) (x j : Nat) (hj : j < 8) :
    crc32 (pre ++ (x ^^^ 2 ^ j) :: post) ≠ crc32 (pre ++ x :: post) := by
  intro heq
  unfold crc32 at heq
  have hinj : ∀ a b : Nat, 4294967295 ^^^ a = 4294967295 ^^^ b → a = b := by
    intro a b hab
    have := congrArg (4294967295 ^^^ ·) hab
    simpa [← Nat.xor_assoc, Nat.xor_self, Nat.zero_xor] using this
  have heq2 := hinj _ _ heq
  rw [List.foldl_append, List.foldl_append] at heq2
  set c := pre.foldl crcUpdateByte 4294967295 with hc
  have hstep : List.foldl crcUpdateByte (crcUpdateByte c (x ^^^ 2 ^ j)) post
      = List.foldl crcUpdateByte (crcUpdateByte c x) post
        ^^^ crcStep^[8 * post.length] (crcStep^[8] (2 ^ j)) := by
    have h1 : crcUpdateByte c (x ^^^ 2 ^ j)
        = crcUpdateByte c x ^^^ crcStep^[8] (2 ^ j) := by
      unfold crcUpdateByte
      rw [← Nat.xor_assoc, crcStepIter_xor]
    rw [h1, foldl_crcUpdate_xor]
  simp only [List.foldl_cons] at heq2
  rw [hstep] at heq2
  have hzero : crcStep^[8 * post.length] (crcStep^[8] (2 ^ j)) = 0 := by
    have := congrArg (List.foldl crcUpdateByte (crcUpdateByte c x) post ^^^ ·)
      (heq2.trans rfl)
    calc crcStep^[8 * post.length] (crcStep^[8] (2 ^ j))
        = List.foldl crcUpdateByte (crcUpdateByte c x) post
            ^^^ (List.foldl crcUpdateByte (crcUpdateByte c x) post
              ^^^ crcStep^[8 * post.length] (crcStep^[8] (2 ^ j))) := by
          rw [← Nat.xor_assoc, Nat.xor_self, Nat.zero_xor]
      _ = List.foldl crcUpdateByte (crcUpdateByte c x) post
            ^^^ List.foldl crcUpdateByte (crcUpdateByte c x) post := by rw [heq2]
      _ = 0 := Nat.xor_self _
  have hjlt : (2 : Nat) ^ j < 2 ^ 32 := by
    have : (2 : Nat) ^ j ≤ 2 ^ 7 := Nat.pow_le_pow_right (by norm_num) (by omega)
    omega
  have h1 : crcStep^[8] (2 ^ j) = 0 → (2 : Nat) ^ j = 0 := crcStepIter_eq_zero 8 hjlt
  have h2 : (2 : Nat) ^ j = 0 :=
    h1 (crcStepIter_eq_zero (8 * post.length) (crcStepIter_lt 8 hjlt) hzero)
  exact absurd h2 (Nat.pos_iff_ne_zero.mp (Nat.pos_pow_of_pos j (by norm_num))).elim

/-! ## Lemmas: frame codec -/

theorem length_encPayload (rec : Record) :
    (encPayload rec).length
      = 24 + rec.Cmd.ClientID.length + rec.Cmd.Key.length + rec.Cmd.Value.length := by
  simp [encPayload]
  omega

theorem encPayload_mem_lt (rec : Record)
    (hi : rec.Cmd.Instruct = CmdPut ∨ rec.Cmd.Instruct = CmdDelete)
    (h4 : ∀ b ∈ rec.Cmd.ClientID, b < 256) (h5 : ∀ b ∈ rec.Cmd.Key, b < 256)
    (h6 : ∀ b ∈ rec.Cmd.Value, b < 256) :
    ∀ b ∈ encPayload rec, b < 256 := by
  intro b hb
  simp only [encPayload, List.mem_append, List.mem_singleton] at hb
  rcases hb with ((((((((hb | hb) | hb) | hb) | hb) | hb) | hb) | hb) | hb)
  · exact beBytes_mem_lt 8 _ b hb
  · subst hb; exact Nat.mod_lt _ (by norm_num)
  · subst hb; exact Nat.mod_lt _ (by norm_num)
  · exact h4 b hb
  · exact beBytes_mem_lt 8 _ b hb
  · exact beBytes_mem_lt 2 _ b hb
  · exact h5 b hb
  · exact beBytes_mem_lt 4 _ b hb
  · exact h6 b hb

theorem frameLenOf_eq (rec : Record)
    (hcap : 28 + rec.Cmd.ClientID.length + rec.Cmd.Key.length + rec.Cmd.Value.length ≤ 2 ^ 30) :
    frameLenOf rec
      = 28 + rec.Cmd.ClientID.length + rec.Cmd.Key.length + rec.Cmd.Value.length := by
  unfold frameLenOf
  rw [length_encPayload]
  have hlt : (2 : Nat) ^ 30 < 2 ^ 32 := by norm_num
  rw [Nat.mod_eq_of_lt (by omega)]
  omega

theorem length_frameOf (rec : Record) : (frameOf rec).length = 8 + (encPayload rec).length := by
  simp [frameOf]
  omega

theorem encode_eq_ok (rec : Record)
    (h1 : rec.Cmd.Instruct = CmdPut ∨ rec.Cmd.Instruct = CmdDelete)
    (h2 : rec.Cmd.ClientID.length ≤ 255)
    (h3 : rec.Cmd.Key.length ≤ 65535)
    (h4 : rec.Cmd.Value.length ≤ 4294967295) :
    Encode rec = .ok (frameOf rec) := by
  have hne : ¬ (encPayload rec = []) := by
    intro hh
    have hl := length_encPayload rec
    rw [hh] at hl
    simp only [List.length_nil] at hl
    omega
  unfold Encode
  rw [if_neg (not_not_intro h1), if_neg (by omega), if_neg (by omega), if_neg (by omega),
    if_neg hne]

theorem encode_ok_inv (rec : Record) (f : List Nat) (h : Encode rec = .ok f) :
    (rec.Cmd.Instruct = CmdPut ∨ rec.Cmd.Instruct = CmdDelete) ∧
    rec.Cmd.ClientID.length ≤ 255 ∧ rec.Cmd.Key.length ≤ 65535 ∧
    rec.Cmd.Value.length ≤ 4294967295 ∧ f = frameOf rec := by
  unfold Encode at h
  split at h
  · exact absurd h (by simp)
  · rename_i hc1
    split at h
    · exact absurd h (by simp)
    · rename_i hc2
      split at h
      · exact absurd h (by simp)
      · rename_i hc3
        split at h
        · exact absurd h (by simp)
        · rename_i hc4
          split at h
          · exact absurd h (by simp)
          · simp only [Except.ok.injEq] at h
            exact ⟨not_not.mp hc1, by omega, by omega, by omega, h.symm⟩

theorem sliceP_eq_ok (l : List Nat) (i j : Nat) (h1 : i ≤ j) (h2 : j ≤ l.length) :
    sliceP l i j = .ok ((l.drop i).take (j - i)) := by
  unfold sliceP
  rw [if_pos ⟨h1, h2⟩]

theorem elemP_eq_ok (l : List Nat) (i : Nat) (h : i < l.length) :
    elemP l i = .ok (l.getD i 0) := by
  unfold elemP
  rw [if_pos h]

theorem sliceP_error {l : List Nat} {i j : Nat} {e : DecodeErr}
    (h : sliceP l i j = .error e) : ¬ (i ≤ j ∧ j ≤ l.length) := by
  intro hc
  rw [sliceP_eq_ok l i j hc.1 hc.2] at h
  exact absurd h (by simp)

theorem elemP_error {l : List Nat} {i : Nat} {e : DecodeErr}
    (h : elemP l i = .error e) : ¬ i < l.length := by
  intro hc
  rw [elemP_eq_ok l i hc] at h
  exact absurd h (by simp)

theorem sliceP_parts (pre mid post l : List Nat) (i j : Nat)
    (hl : l = pre ++ (mid ++ post)) (hi : i = pre.length) (hj : j = pre.length + mid.length) :
    sliceP l i j = .ok mid := by
  subst hl hi hj
  rw [sliceP_eq_ok _ _ _ (Nat.le_add_right _ _) (by simp [List.length_append])]
  congr 1
  rw [List.drop_left]
  have hd : pre.length + mid.length - pre.length = mid.length := by omega
  rw [hd, List.take_left]

theorem elemP_parts (pre post l : List Nat) (b i : Nat)
    (hl : l = pre ++ b :: post) (hi : i = pre.length) :
    elemP l i = .ok b := by
  subst hl hi
  have hlt : pre.length < (pre ++ b :: post).length := by simp
  rw [elemP_eq_ok _ _ hlt]
  congr 1
  rw [List.getD_eq_getElem _ _ hlt, List.getElem_append_right (le_refl _)]
  simp

theorem Decode_encPayload (rec : Record)
    (h1 : rec.Cmd.Instruct = CmdPut ∨ rec.Cmd.Instruct = CmdDelete)
    (h2 : rec.Cmd.ClientID.length ≤ 255)
    (h3 : rec.Cmd.Key.length ≤ 65535)
    (h4 : rec.Cmd.Value.length < 2 ^ 32)
    (h5 : rec.LogIndex < 2 ^ 64)
    (h6 : rec.Cmd.Seq < 2 ^ 64) :
    Decode (encPayload rec) = .ok rec := by
  obtain ⟨li, instr, cid, sq, key, val⟩ := rec
  dsimp only at h1 h2 h3 h4 h5 h6
  have hInstrLt : instr < 256 := by
    rcases h1 with h | h <;> rw [h] <;> norm_num [CmdPut, CmdDelete]
  have hInstr : instr % 256 = instr := Nat.mod_eq_of_lt hInstrLt
  have hCl : cid.length % 256 = cid.length := Nat.mod_eq_of_lt (by omega)
  have hvt : validType instr = true := by
    rcases h1 with h | h <;> simp [validType, h]
  have hkl : beToNat (beBytes 2 key.length) = key.length := by
    apply beToNat_beBytes_of_lt
    have : (256 : Nat) ^ 2 = 65536 := by norm_num
    omega
  have hvl : beToNat (beBytes 4 val.length) = val.length := by
    apply beToNat_beBytes_of_lt
    have : (256 : Nat) ^ 4 = 2 ^ 32 := by norm_num
    omega
  have hli : beToNat (beBytes 8 li) = li := by
    apply beToNat_beBytes_of_lt
    have : (256 : Nat) ^ 8 = 2 ^ 64 := by norm_num
    omega
  have hsq : beToNat (beBytes 8 sq) = sq := by
    apply beToNat_beBytes_of_lt
    have : (256 : Nat) ^ 8 = 2 ^ 64 := by norm_num
    omega
  set pl := encPayload ⟨li, ⟨instr, cid, sq, key, val⟩⟩ with hpldef
  have L : pl.length = 24 + cid.length + key.length + val.length := length_encPayload _
  have hsh : pl = beBytes 8 li ++ ([instr] ++ ([cid.length] ++ (cid ++ (beBytes 8 sq
      ++ (beBytes 2 key.length ++ (key ++ (beBytes 4 val.length ++ val))))))) := by
    rw [hpldef]
    simp [encPayload, List.append_assoc, hInstr, hCl]
  have F1 : sliceP pl 0 8 = .ok (beBytes 8 li) := by
    apply sliceP_parts [] (beBytes 8 li)
      ([instr] ++ ([cid.length] ++ (cid ++ (beBytes 8 sq
        ++ (beBytes 2 key.length ++ (key ++ (beBytes 4 val.length ++ val)))))))
    · simpa using hsh
    · rfl
    · simp
  have F2 : elemP pl 8 = .ok instr := by
    apply elemP_parts (beBytes 8 li)
      ([cid.length] ++ (cid ++ (beBytes 8 sq
        ++ (beBytes 2 key.length ++ (key ++ (beBytes 4 val.length ++ val))))))
    · simpa [List.append_assoc] using hsh
    · simp
  have F3 : elemP pl 9 = .ok cid.length := by
    apply elemP_parts (beBytes 8 li ++ [instr])
      (cid ++ (beBytes 8 sq ++ (beBytes 2 key.length
        ++ (key ++ (beBytes 4 val.length ++ val)))))
    · simpa [List.append_assoc] using hsh
    · simp
  have F4 : sliceP pl 10 (10 + cid.length) = .ok cid := by
    apply sliceP_parts (beBytes 8 li ++ [instr] ++ [cid.length]) cid
      (beBytes 8 sq ++ (beBytes 2 key.length ++ (key ++ (beBytes 4 val.length ++ val))))
    · simpa [List.append_assoc] using hsh
    · simp only [List.length_append, length_beBytes, List.length_cons, List.length_nil]
    · simp only [List.length_append, length_beBytes, List.length_cons, List.length_nil]
  have F5 : sliceP pl (10 + cid.length) (10 + cid.length + 8) = .ok (beBytes 8 sq) := by
    apply sliceP_parts (beBytes 8 li ++ [instr] ++ [cid.length] ++ cid) (beBytes 8 sq)
      (beBytes 2 key.length ++ (key ++ (beBytes 4 val.length ++ val)))
    · simpa [List.append_assoc] using hsh
    · simp only [List.length_append, length_beBytes, List.length_cons, List.length_nil]
    · simp only [List.length_append, length_beBytes, List.length_cons, List.length_nil]
  have F6 : sliceP pl (18 + cid.length) (18 + cid.length + 2)
      = .ok (beBytes 2 key.length) := by
    apply sliceP_parts (beBytes 8 li ++ [instr] ++ [cid.length] ++ cid ++ beBytes 8 sq)
      (beBytes 2 key.length) (key ++ (beBytes 4 val.length ++ val))
    · simpa [List.append_assoc] using hsh
    · simp only [List.length_append, length_beBytes, List.length_cons, List.length_nil]
      omega
    · simp only [List.length_append, length_beBytes, List.length_cons, List.length_nil]
      omega
  have F7 : sliceP pl (20 + cid.length) (20 + cid.length + key.length) = .ok key := by
    apply sliceP_parts
      (beBytes 8 li ++ [instr] ++ [cid.length] ++ cid ++ beBytes 8 sq ++ beBytes 2 key.length)
      key (beBytes 4 val.length ++ val)
    · simpa [List.append_assoc] using hsh
    · simp only [List.length_append, length_beBytes, List.length_cons, List.length_nil]
      omega
    · simp only [List.length_append, length_beBytes, List.length_cons, List.length_nil]
      omega
  have F8 : sliceP pl (20 + cid.length + key.length) (20 + cid.length + key.length + 4)
      = .ok (beBytes 4 val.length) := by
    apply sliceP_parts
      (beBytes 8 li ++ [instr] ++ [cid.length] ++ cid ++ beBytes 8 sq
        ++ beBytes 2 key.length ++ key) (beBytes 4 val.length) val
    · simpa [List.append_assoc] using hsh
    · simp only [List.length_append, length_beBytes, List.length_cons, List.length_nil]
      omega
    · simp only [List.length_append, length_beBytes, List.length_cons, List.length_nil]
      omega
  have F9 : sliceP pl (24 + cid.length + key.length)
      (24 + cid.length + key.length + val.length) = .ok val := by
    apply sliceP_parts
      (beBytes 8 li ++ [instr] ++ [cid.length] ++ cid ++ beBytes 8 sq
        ++ beBytes 2 key.length ++ key ++ beBytes 4 val.length) val []
    · simpa [List.append_assoc] using hsh
    · simp only [List.length_append, length_beBytes, List.length_cons, List.length_nil]
      omega
    · simp only [List.length_append, length_beBytes, List.length_cons, List.length_nil]
      omega
  have G1 : ¬ (pl.length < 8) := by omega
  have G2 : ¬ (pl.length - 8 < 1) := by omega
  have G3 : ¬ (pl.length - 9 < 1) := by omega
  have G4 : ¬ (pl.length - 10 < cid.length) := by omega
  have G5 : ¬ (pl.length - (10 + cid.length) < 8) := by omega
  have G6 : ¬ (pl.length - (18 + cid.length) < 2) := by omega
  have G7 : ¬ (pl.length - (20 + cid.length) < key.length) := by omega
  have G8 : ¬ (pl.length - (20 + cid.length + key.length) < 4) := by omega
  have G9 : ¬ (pl.length - (24 + cid.length + key.length) < val.length) := by omega
  simp only [Decode, F1, F2, F3, F4, F5, F6, F7, F8, F9, hkl, hvl, hli, hsq, hvt,
    G1, G2, G3, G4, G5, G6, G7, G8, G9, if_false, ite_false, Bool.not_true,
    Bool.false_eq_true, if_neg, not_false_eq_true]

theorem Decode_no_oor (payload : List Nat) : Decode payload ≠ .error .outOfRange := by
  intro h
  unfold Decode at h
  by_cases G1 : payload.length < 8
  · rw [if_pos G1] at h
    simp at h
  rw [if_neg G1] at h
  rcases hE1 : sliceP payload 0 8 with e | liB
  · have := sliceP_error hE1
    omega
  simp only [hE1] at h
  by_cases G2 : payload.length - 8 < 1
  · rw [if_pos G2] at h
    simp at h
  rw [if_neg G2] at h
  rcases hE2 : elemP payload 8 with e | instr
  · have := elemP_error hE2
    omega
  simp only [hE2] at h
  by_cases GV : (!validType instr) = true
  · rw [if_pos GV] at h
    simp at h
  rw [if_neg GV] at h
  by_cases G3 : payload.length - 9 < 1
  · rw [if_pos G3] at h
    simp at h
  rw [if_neg G3] at h
  rcases hE3 : elemP payload 9 with e | cl
  · have := elemP_error hE3
    omega
  simp only [hE3] at h
  by_cases G4 : payload.length - 10 < cl
  · rw [if_pos G4] at h
    simp at h
  rw [if_neg G4] at h
  rcases hE4 : sliceP payload 10 (10 + cl) with e | cid
  · have := sliceP_error hE4
    omega
  simp only [hE4] at h
  by_cases G5 : payload.length - (10 + cl) < 8
  · rw [if_pos G5] at h
    simp at h
  rw [if_neg G5] at h
  rcases hE5 : sliceP payload (10 + cl) (10 + cl + 8) with e | seqB
  · have := sliceP_error hE5
    omega
  simp only [hE5] at h
  by_cases G6 : payload.length - (18 + cl) < 2
  · rw [if_pos G6] at h
    simp at h
  rw [if_neg G6] at h
  rcases hE6 : sliceP payload (18 + cl) (18 + cl + 2) with e | klB
  · have := sliceP_error hE6
    omega
  simp only [hE6] at h
  by_cases G7 : payload.length - (20 + cl) < beToNat klB
  · rw [if_pos G7] at h
    simp at h
  rw [if_neg G7] at h
  rcases hE7 : sliceP payload (20 + cl) (20 + cl + beToNat klB) with e | key
  · have := sliceP_error hE7
    omega
  simp only [hE7] at h
  by_cases G8 : payload.length - (20 + cl + beToNat klB) < 4
  · rw [if_pos G8] at h
    simp at h
  rw [if_neg G8] at h
  rcases hE8 : sliceP payload (20 + cl + beToNat klB) (20 + cl + beToNat klB + 4)
    with e | vlB
  · have := sliceP_error hE8
    omega
  simp only [hE8] at h
  by_cases G9 : payload.length - (24 + cl + beToNat klB) < beToNat vlB
  · rw [if_pos G9] at h
    simp at h
  rw [if_neg G9] at h
  rcases hE9 : sliceP payload (24 + cl + beToNat klB) (24 + cl + beToNat klB + beToNat vlB)
    with e | val
  · have := sliceP_error hE9
    omega
  simp [hE9] at h

/-! ## Lemmas: replay -/

theorem foldl_crcUpdate_lt (l : List Nat) (c : Nat) (hc : c < 2 ^ 32)
    (h : ∀ b ∈ l, b < 256) : l.foldl crcUpdateByte c < 2 ^ 32 := by
  induction l generalizing c with
  | nil => simpa using hc
  | cons b bs ih =>
    simp only [List.foldl_cons]
    apply ih
    · unfold crcUpdateByte
      apply crcStepIter_lt
      apply Nat.xor_lt_two_pow hc
      have : b < 256 := h b (by simp)
      omega
    · intro x hx
      exact h x (by simp [hx])

theorem crc32_lt (data : List Nat) (h : ∀ b ∈ data, b < 256) : crc32 data < 2 ^ 32 := by
  unfold crc32
  exact Nat.xor_lt_two_pow (by norm_num) (foldl_crcUpdate_lt data _ (by norm_num) h)

theorem frameLenOf_encLen (rec : Record)
    (hcap : 28 + rec.Cmd.ClientID.length + rec.Cmd.Key.length + rec.Cmd.Value.length ≤ 2 ^ 30) :
    frameLenOf rec = 4 + (encPayload rec).length := by
  rw [frameLenOf_eq rec hcap, length_encPayload]
  omega

theorem readFrameAt_frame (pre post : List Nat) (rec : Record) (h : recFrameOk rec) :
    readFrameAt (pre ++ (frameOf rec ++ post)) pre.length
      = .ok (encPayload rec, (frameOf rec).length) := by
  obtain ⟨h1, h2, h3, h4, h5, h6, h7, h8, hcap⟩ := h
  have hP : ∀ b ∈ encPayload rec, b < 256 := encPayload_mem_lt rec h1 h4 h5 h6
  have hcrc : crc32 (encPayload rec) < 2 ^ 32 := crc32_lt _ hP
  have hLenc : (encPayload rec).length
      = 24 + rec.Cmd.ClientID.length + rec.Cmd.Key.length + rec.Cmd.Value.length :=
    length_encPayload rec
  have hfl : frameLenOf rec = 4 + (encPayload rec).length := frameLenOf_encLen rec hcap
  have hflcap : frameLenOf rec ≤ 2 ^ 30 := by rw [frameLenOf_eq rec hcap]; exact hcap
  have hLfr : (frameOf rec).length = 8 + (encPayload rec).length := length_frameOf rec
  have hfile : (pre ++ (frameOf rec ++ post)).length
      = pre.length + (8 + (encPayload rec).length) + post.length := by
    simp [hLfr]
    omega
  have hdrop : (pre ++ (frameOf rec ++ post)).drop pre.length = frameOf rec ++ post :=
    List.drop_left pre _
  have hsh : frameOf rec ++ post
      = beBytes 4 (frameLenOf rec) ++ (beBytes 4 (crc32 (encPayload rec))
          ++ (encPayload rec ++ post)) := by
    simp [frameOf, List.append_assoc]
  have htake4 : (frameOf rec ++ post).take 4 = beBytes 4 (frameLenOf rec) := by
    rw [hsh]
    exact List.take_left' (length_beBytes 4 _)
  have hflval : beToNat ((pre ++ (frameOf rec ++ post)).drop pre.length |>.take 4)
      = frameLenOf rec := by
    rw [hdrop, htake4]
    apply beToNat_beBytes_of_lt
    have : (256 : Nat) ^ 4 = 2 ^ 32 := by norm_num
    have h30 : (2 : Nat) ^ 30 < 2 ^ 32 := by norm_num
    omega
  have hdrop2 : (pre ++ (frameOf rec ++ post)).drop (pre.length + 4)
      = beBytes 4 (crc32 (encPayload rec)) ++ (encPayload rec ++ post) := by
    have hre : pre ++ (frameOf rec ++ post)
        = (pre ++ beBytes 4 (frameLenOf rec)) ++ (beBytes 4 (crc32 (encPayload rec))
            ++ (encPayload rec ++ post)) := by
      simp [frameOf, List.append_assoc]
    rw [hre]
    exact List.drop_left' (by simp)
  have hbody : ((pre ++ (frameOf rec ++ post)).drop (pre.length + 4)).take (frameLenOf rec)
      = beBytes 4 (crc32 (encPayload rec)) ++ encPayload rec := by
    rw [hdrop2, hfl]
    have h4l : (beBytes 4 (crc32 (encPayload rec))).length = 4 := length_beBytes 4 _
    have he : (4 : Nat) + (encPayload rec).length
        = (beBytes 4 (crc32 (encPayload rec))).length + (encPayload rec).length := by
      rw [h4l]
    rw [he, List.take_append]
    rw [List.take_left' rfl]
  unfold readFrameAt
  rw [if_neg (by omega)]
  simp only [hflval]
  rw [if_neg (by omega), if_neg (by omega), if_neg (by omega)]
  simp only [hbody]
  have hbt : (beBytes 4 (crc32 (encPayload rec)) ++ encPayload rec).take 4
      = beBytes 4 (crc32 (encPayload rec)) :=
    List.take_left' (length_beBytes 4 _)
  have hbd : (beBytes 4 (crc32 (encPayload rec)) ++ encPayload rec).drop 4
      = encPayload rec :=
    List.drop_left' (length_beBytes 4 _)
  rw [hbt, hbd]
  rw [if_neg (by rw [beToNat_beBytes_of_lt (by norm_num at hcrc ⊢; omega)]; simp)]
  have harith : 4 + frameLenOf rec = (frameOf rec).length := by omega
  rw [harith]

theorem replayLoop_eof (file : List Nat) (off : Nat) (acc : List Record) (li : Nat)
    (h : file.length < off + 4) :
    replayLoop file off acc li = (acc, li, false, off) := by
  have hr : readFrameAt file off = .error .eofHeader := by
    unfold readFrameAt
    rw [if_pos h]
  rw [replayLoop]
  split
  · rfl
  · rename_i a hno heq
    rw [hr] at heq
    simp only [Except.error.injEq] at heq
    exact absurd heq.symm hno
  · rename_i heq
    rw [hr] at heq
    simp at heq

theorem replayLoop_err (file : List Nat) (off : Nat) (acc : List Record) (li : Nat)
    (e : FrameErr) (he : e ≠ FrameErr.eofHeader) (h : readFrameAt file off = .error e) :
    replayLoop file off acc li = (acc, li, true, off) := by
  cases e
  · exact absurd rfl he
  all_goals
    rw [replayLoop]
    split
    all_goals
      first
      | rfl
      | (rename_i heq
         rw [h] at heq
         simp at heq)

theorem recFrameOk_decode (rec : Record) (h : recFrameOk rec) :
    Decode (encPayload rec) = .ok rec := by
  obtain ⟨h1, h2, h3, h4, h5, h6, h7, h8, hcap⟩ := h
  exact Decode_encPayload rec h1 h2 h3 (by omega) h7 h8

theorem replayLoop_skip_frames (recs : List Record) (pre post : List Nat)
    (acc : List Record) (li : Nat) (h : ∀ r ∈ recs, recFrameOk r) :
    replayLoop (pre ++ (framesConcat recs ++ post)) pre.length acc li
      = replayLoop (pre ++ (framesConcat recs ++ post))
          (pre.length + (framesConcat recs).length) (acc ++ recs) (lastIdxOf li recs) := by
  induction recs generalizing pre acc li with
  | nil => simp [framesConcat, lastIdxOf]
  | cons r rs ih =>
    have hr : recFrameOk r := h r (by simp)
    have hrs : ∀ x ∈ rs, recFrameOk x := fun x hx => h x (by simp [hx])
    have hsh : pre ++ (framesConcat (r :: rs) ++ post)
        = pre ++ (frameOf r ++ (framesConcat rs ++ post)) := by
      simp [framesConcat, List.append_assoc]
    have hread := readFrameAt_frame pre (framesConcat rs ++ post) r hr
    rw [hsh]
    rw [replayLoop]
    split
    · rename_i heq
      rw [hread] at heq
      simp at heq
    · rename_i a hno heq
      rw [hread] at heq
      simp at heq
    · rename_i enc n heq
      rw [hread] at heq
      simp only [Except.ok.injEq, Prod.mk.injEq] at heq
      obtain ⟨he1, he2⟩ := heq
      subst he1
      subst he2
      simp only [recFrameOk_decode r hr]
      have hsh2 : pre ++ (frameOf r ++ (framesConcat rs ++ post))
          = (pre ++ frameOf r) ++ (framesConcat rs ++ post) := by
        simp [List.append_assoc]
      have hlen : pre.length + (frameOf r).length = (pre ++ frameOf r).length := by simp
      rw [hsh2, hlen]
      rw [ih (pre ++ frameOf r) (acc ++ [r]) r.LogIndex hrs]
      have hlast : lastIdxOf li (r :: rs) = lastIdxOf r.LogIndex rs := rfl
      have hacc : (acc ++ [r]) ++ rs = acc ++ (r :: rs) := by simp
      have hlen2 : (pre ++ frameOf r).length + (framesConcat rs).length
          = pre.length + (framesConcat (r :: rs)).length := by
        simp [framesConcat]
        omega
      rw [hacc, hlast, hlen2]

/-! ## Lemmas: single-bit corruption of a frame -/

theorem length_flipBit (l : List Nat) (k j : Nat) (hk : k < l.length) :
    (flipBit l k j).length = l.length := by
  simp [flipBit]
  omega

theorem flipBit_append_left (A B : List Nat) (k j : Nat) (hk : k < A.length) :
    flipBit (A ++ B) k j = flipBit A k j ++ B := by
  unfold flipBit
  have h1 : (A ++ B).take k = A.take k := List.take_append_of_le_length (by omega)
  have h2 : (A ++ B).getD k 0 = A.getD k 0 := by
    rw [List.getD_eq_getElem _ _ (by simp; omega), List.getD_eq_getElem _ _ hk]
    exact List.getElem_append_left hk
  have h3 : (A ++ B).drop (k + 1) = A.drop (k + 1) ++ B :=
    List.drop_append_of_le_length (by omega)
  rw [h1, h2, h3]
  simp [List.append_assoc]

theorem flipBit_append_right (A B : List Nat) (k j : Nat) (hk : A.length ≤ k)
    (hkb : k < A.length + B.length) :
    flipBit (A ++ B) k j = A ++ flipBit B (k - A.length) j := by
  unfold flipBit
  have h1 : (A ++ B).take k = A ++ B.take (k - A.length) := by
    have hsp : k = A.length + (k - A.length) := by omega
    rw [hsp, List.take_append]
    have harith : A.length + (k - A.length) - A.length = k - A.length := by omega
    rw [harith]
  have h2 : (A ++ B).getD k 0 = B.getD (k - A.length) 0 := by
    rw [List.getD_eq_getElem _ _ (by simp; omega), List.getD_eq_getElem _ _ (by omega)]
    exact List.getElem_append_right hk
  have h3 : (A ++ B).drop (k + 1) = B.drop (k - A.length + 1) := by
    have hsp : k + 1 = A.length + (k - A.length + 1) := by omega
    rw [hsp, List.drop_append]
  rw [h1, h2, h3]
  simp [List.append_assoc]

theorem flipBit_cons_form (l : List Nat) (k j : Nat) (hk : k < l.length) :
    flipBit l k j = l.take k ++ (l.getD k 0 ^^^ 2 ^ j) :: l.drop (k + 1)
      ∧ l = l.take k ++ l.getD k 0 :: l.drop (k + 1) := by
  constructor
  · simp [flipBit]
  · conv_lhs => rw [← List.take_append_drop k l]
    rw [List.drop_eq_getElem_cons hk, List.getD_eq_getElem _ _ hk]

theorem xor_two_pow_ne (b j : Nat) : b ^^^ 2 ^ j ≠ b := by
  intro h
  have h2 := congrArg (b ^^^ ·) h
  simp only [Nat.xor_cancel_left, Nat.xor_self] at h2
  have hp : 0 < (2 : Nat) ^ j := pow_pos (by norm_num) j
  omega

theorem getD_flipBit (l : List Nat) (k j : Nat) (hk : k < l.length) :
    (flipBit l k j).getD k 0 = l.getD k 0 ^^^ 2 ^ j := by
  obtain ⟨h1, _⟩ := flipBit_cons_form l k j hk
  rw [h1]
  have hlen : (l.take k).length = k := by simp; omega
  rw [List.getD_eq_getElem _ _ (by simp [hlen] <;> omega)]
  rw [List.getElem_append_right (by omega)]
  simp [hlen]

theorem flipBit_mem_lt (l : List Nat) (k j : Nat) (hk : k < l.length) (hj : j < 8)
    (h : ∀ b ∈ l, b < 256) : ∀ b ∈ flipBit l k j, b < 256 := by
  intro b hb
  simp only [flipBit, List.mem_append, List.mem_singleton] at hb
  rcases hb with (hb | hb) | hb
  · exact h b (List.mem_of_mem_take hb)
  · subst hb
    have hb1 : l.getD k 0 < 256 := h _ (by rw [List.getD_eq_getElem _ _ hk]; exact List.getElem_mem hk)
    have hb2 : (2 : Nat) ^ j < 2 ^ 8 := Nat.pow_lt_pow_right (by norm_num) hj
    have : (256 : Nat) = 2 ^ 8 := by norm_num
    rw [this] at hb1 ⊢
    exact Nat.xor_lt_two_pow hb1 hb2
  · exact h b (List.mem_of_mem_drop hb)

theorem beToNat_flipBit_ne (l : List Nat) (k j : Nat) (hk : k < l.length) (hj : j < 8)
    (h : ∀ b ∈ l, b < 256) : beToNat (flipBit l k j) ≠ beToNat l := by
  intro heq
  have hfl : flipBit l k j = l :=
    beToNat_inj _ _ (length_flipBit l k j hk) (flipBit_mem_lt l k j hk hj h) h heq
  have hg := congrArg (·.getD k 0) hfl
  simp only at hg
  rw [getD_flipBit l k j hk] at hg
  exact xor_two_pow_ne _ _ hg

theorem crc32_flipBit_ne (l : List Nat) (k j : Nat) (hk : k < l.length) (hj : j < 8) :
    crc32 (flipBit l k j) ≠ crc32 l := by
  obtain ⟨h1, h2⟩ := flipBit_cons_form l k j hk
  rw [h1]
  conv_rhs => rw [h2]
  exact crc32_flip_ne (l.take k) (l.drop (k + 1)) (l.getD k 0) j hj

theorem readFrameAt_corrupt (pre : List Nat) (rec : Record) (h : recFrameOk rec)
    (k j : Nat) (hk : k < 4 + (encPayload rec).length) (hj : j < 8) :
    readFrameAt (pre ++ corruptFrame rec k j) pre.length = .error .crcMismatch := by
  obtain ⟨h1, h2, h3, h4, h5, h6, h7, h8, hcap⟩ := h
  have hP : ∀ b ∈ encPayload rec, b < 256 := encPayload_mem_lt rec h1 h4 h5 h6
  have hcrc : crc32 (encPayload rec) < 2 ^ 32 := crc32_lt _ hP
  have hLenc := length_encPayload rec
  have hfl : frameLenOf rec = 4 + (encPayload rec).length := frameLenOf_encLen rec hcap
  have hflcap : frameLenOf rec ≤ 2 ^ 30 := by
    rw [frameLenOf_eq rec hcap]
    exact hcap
  have hAl : (beBytes 4 (crc32 (encPayload rec))).length = 4 := length_beBytes 4 _
  have hbodyl : (beBytes 4 (crc32 (encPayload rec)) ++ encPayload rec).length
      = 4 + (encPayload rec).length := by simp
  have hflipl : (flipBit (beBytes 4 (crc32 (encPayload rec)) ++ encPayload rec) k j).length
      = 4 + (encPayload rec).length := by
    rw [length_flipBit _ _ _ (by omega)]
    exact hbodyl
  have hfile : (pre ++ corruptFrame rec k j).length
      = pre.length + 4 + (4 + (encPayload rec).length) := by
    simp [corruptFrame, hflipl]
    omega
  have hdrop : (pre ++ corruptFrame rec k j).drop pre.length = corruptFrame rec k j :=
    List.drop_left pre _
  have hflval : beToNat (((pre ++ corruptFrame rec k j).drop pre.length).take 4)
      = frameLenOf rec := by
    rw [hdrop]
    unfold corruptFrame
    rw [List.take_left' (length_beBytes 4 _)]
    apply beToNat_beBytes_of_lt
    have hn : (256 : Nat) ^ 4 = 2 ^ 32 := by norm_num
    have h30 : (2 : Nat) ^ 30 < 2 ^ 32 := by norm_num
    omega
  have hdrop2 : (pre ++ corruptFrame rec k j).drop (pre.length + 4)
      = flipBit (beBytes 4 (crc32 (encPayload rec)) ++ encPayload rec) k j := by
    have hre : pre ++ corruptFrame rec k j
        = (pre ++ beBytes 4 (frameLenOf rec))
            ++ flipBit (beBytes 4 (crc32 (encPayload rec)) ++ encPayload rec) k j := by
      simp [corruptFrame, List.append_assoc]
    rw [hre]
    exact List.drop_left' (by simp)
  have hbody : ((pre ++ corruptFrame rec k j).drop (pre.length + 4)).take (frameLenOf rec)
      = flipBit (beBytes 4 (crc32 (encPayload rec)) ++ encPayload rec) k j := by
    rw [hdrop2]
    apply List.take_of_length_le
    omega
  unfold readFrameAt
  rw [if_neg (by omega)]
  simp only [hflval]
  rw [if_neg (by omega), if_neg (by omega), if_neg (by omega)]
  simp only [hbody]
  rw [if_pos]
  rcases Nat.lt_or_ge k 4 with hk4 | hk4
  · -- the flip hit the stored CRC
    have hsplit : flipBit (beBytes 4 (crc32 (encPayload rec)) ++ encPayload rec) k j
        = flipBit (beBytes 4 (crc32 (encPayload rec))) k j ++ encPayload rec :=
      flipBit_append_left _ _ k j (by omega)
    rw [hsplit, List.drop_left' (by rw [length_flipBit _ _ _ (by omega)]; exact hAl),
      List.take_left' (by rw [length_flipBit _ _ _ (by omega)]; exact hAl)]
    intro heq
    have hA : beToNat (beBytes 4 (crc32 (encPayload rec))) = crc32 (encPayload rec) := by
      apply beToNat_beBytes_of_lt
      have hn : (256 : Nat) ^ 4 = 2 ^ 32 := by norm_num
      omega
    have := beToNat_flipBit_ne (beBytes 4 (crc32 (encPayload rec))) k j (by omega) hj
      (beBytes_mem_lt 4 _)
    rw [hA] at this
    exact this (heq.symm)
  · -- the flip hit the payload
    have hsplit : flipBit (beBytes 4 (crc32 (encPayload rec)) ++ encPayload rec) k j
        = beBytes 4 (crc32 (encPayload rec)) ++ flipBit (encPayload rec) (k - 4) j := by
      have := flipBit_append_right (beBytes 4 (crc32 (encPayload rec))) (encPayload rec)
        k j (by omega) (by omega)
      rw [hAl] at this
      exact this
    rw [hsplit, List.drop_left' hAl, List.take_left' hAl]
    intro heq
    have hA : beToNat (beBytes 4 (crc32 (encPayload rec))) = crc32 (encPayload rec) := by
      apply beToNat_beBytes_of_lt
      have hn : (256 : Nat) ^ 4 = 2 ^ 32 := by norm_num
      omega
    rw [hA] at heq
    exact crc32_flipBit_ne (encPayload rec) (k - 4) j (by omega) hj heq

theorem ReplayAll_clean (recs : List Record) (w : WALState)
    (hfile : w.file = walHeader ++ framesConcat recs)
    (h : ∀ r ∈ recs, recFrameOk r) :
    WAL.ReplayAll w = (recs, lastIdxOf 0 recs, ⟨w.file, w.file.length, [], w.closed⟩) := by
  have hloop : replayLoop w.file 9 [] 0 = (recs, lastIdxOf 0 recs, false, w.file.length) := by
    have hfe : w.file = walHeader ++ (framesConcat recs ++ []) := by
      rw [hfile]
      simp
    rw [hfe]
    have h9 : (9 : Nat) = walHeader.length := rfl
    rw [h9]
    rw [replayLoop_skip_frames recs walHeader [] [] 0 h]
    rw [replayLoop_eof _ _ _ _ (by simp)]
    simp
  unfold WAL.ReplayAll
  simp only [hloop]

theorem ReplayAll_corrupt (recs : List Record) (rec : Record) (k j : Nat) (w : WALState)
    (hfile : w.file = walHeader ++ (framesConcat recs ++ corruptFrame rec k j))
    (h : ∀ r ∈ recs, recFrameOk r) (hlast : recFrameOk rec)
    (hk : k < 4 + (encPayload rec).length) (hj : j < 8) :
    WAL.ReplayAll w
      = (recs, lastIdxOf 0 recs,
         ⟨walHeader ++ framesConcat recs, (walHeader ++ framesConcat recs).length,
          [], w.closed⟩) := by
  have hloop : replayLoop w.file 9 [] 0
      = (recs, lastIdxOf 0 recs, true, (walHeader ++ framesConcat recs).length) := by
    rw [hfile]
    have h9 : (9 : Nat) = walHeader.length := rfl
    rw [h9]
    rw [replayLoop_skip_frames recs walHeader (corruptFrame rec k j) [] 0 h]
    have hsh : walHeader ++ (framesConcat recs ++ corruptFrame rec k j)
        = (walHeader ++ framesConcat recs) ++ corruptFrame rec k j := by
      simp [List.append_assoc]
    have hoff : walHeader.length + (framesConcat recs).length
        = (walHeader ++ framesConcat recs).length := by simp
    rw [hsh, hoff]
    rw [replayLoop_err _ _ _ _ FrameErr.crcMismatch (by simp)
      (readFrameAt_corrupt (walHeader ++ framesConcat recs) rec hlast k j hk hj)]
    simp
  unfold WAL.ReplayAll
  rw [hfile] at hloop ⊢
  simp only [hloop]
  have htr : (walHeader ++ (framesConcat recs ++ corruptFrame rec k j)).take
      (walHeader ++ framesConcat recs).length = walHeader ++ framesConcat recs := by
    have hsh : walHeader ++ (framesConcat recs ++ corruptFrame rec k j)
        = (walHeader ++ framesConcat recs) ++ corruptFrame rec k j := by
      simp [List.append_assoc]
    rw [hsh]
    exact List.take_left' rfl
  rw [htr]

/-! ## Lemmas: node execution -/

theorem Append_ok (w : WALState) (rec : Record) (f : List Nat) (hclosed : w.closed = false)
    (hbuf : w.buf = []) (henc : Encode rec = .ok f) (hf : f ≠ []) :
    WAL.Append w rec = .ok ⟨w.file ++ f, w.offset + f.length, [], false⟩ := by
  unfold WAL.Append
  simp only [henc]
  unfold bwFlush
  simp only [hbuf, List.nil_append]
  rw [if_neg hf]
  simp only [hclosed]
  rw [if_neg (by simp)]
  unfold fSync
  simp only [hclosed]
  rw [if_neg (by simp)]

theorem Apply_ok_char (s : Store) (c : Command) (li : Nat) (hd : s.dedupMap = [])
    (hseq : 1 ≤ c.Seq) (hli : li = s.lastlogi + 1)
    (hok : (Store.Apply s c li).err = none) :
    (Store.Apply s c li).st.lastlogi = li ∧ (Store.Apply s c li).st.dedupMap = [] := by
  have hpeek : ¬ (c.Seq ≤ (dedupGet s.dedupMap c.ClientID).seq) := by
    rw [hd]
    simp only [dedupGet, zeroDedup]
    omega
  unfold Store.Apply at hok ⊢
  rw [if_neg (by omega), if_neg hpeek] at hok ⊢
  by_cases h1 : c.Instruct = CmdPut
  · rw [if_pos h1] at hok ⊢
    rcases hkv : kvGet s.kv c.Key with _ | v
    all_goals simp only [hkv] at hok ⊢
    all_goals exact ⟨trivial, hd⟩
  · rw [if_neg h1] at hok ⊢
    by_cases h2 : c.Instruct = CmdDelete
    · rw [if_pos h2] at hok ⊢
      rcases hkv : kvGet s.kv c.Key with _ | v
      all_goals simp only [hkv] at hok ⊢
      · simp at hok
      · exact ⟨trivial, hd⟩
    · rw [if_neg h2] at hok ⊢
      simp at hok

theorem applyAll_cons_ok (st : Store) (r : Record) (rest : List Record)
    (hok : (st.Apply r.Cmd r.LogIndex).err = none) :
    applyAll st (r :: rest) = applyAll (st.Apply r.Cmd r.LogIndex).st rest := by
  conv_lhs => rw [applyAll]
  simp only [hok]

theorem Exec_ok_step (n : Node) (c : Command) (hinv : nodeInv n) (hwf : wfCommand c)
    (hli : n.last + 1 < 2 ^ 64) (hok : (n.Exec c).2.2 = none) :
    recFrameOk ⟨n.last + 1, c⟩ ∧
    (Store.Apply n.store c (n.last + 1)).err = none ∧
    (n.Exec c).2.1 = ⟨⟨n.wal.file ++ frameOf ⟨n.last + 1, c⟩,
        n.wal.offset + (frameOf ⟨n.last + 1, c⟩).length, [], false⟩,
      (Store.Apply n.store c (n.last + 1)).st, n.last + 1⟩ ∧
    nodeInv (n.Exec c).2.1 := by
  obtain ⟨hd, hcl, hbuf, hlli⟩ := hinv
  obtain ⟨hseq, hseqlt, hbc, hbk, hbv, hcap⟩ := hwf
  have hpeek : ¬ ((dedupGet n.store.dedupMap c.ClientID).seq ≥ c.Seq) := by
    rw [hd]
    simp only [dedupGet, zeroDedup]
    omega
  by_cases hv : validType c.Instruct
  · rcases hE : Encode ⟨n.last + 1, c⟩ with e | f
    · -- Encode failed: Exec surfaces the append error, contradicting hok
      have happ : WAL.Append n.wal ⟨n.last + 1, c⟩ = .error (.enc e) := by
        unfold WAL.Append
        simp only [hE]
      have hexec : (n.Exec c).2.2 = some (.append (.enc e)) := by
        unfold Node.Exec
        rw [if_neg hpeek, if_neg (not_not_intro hv)]
        simp only [happ]
      have hcontra := hexec.symm.trans hok
      simp at hcontra
    · obtain ⟨hi1, hi2, hi3, hi4, hfe⟩ := encode_ok_inv _ _ hE
      have hrfo : recFrameOk ⟨n.last + 1, c⟩ :=
        ⟨hi1, hi2, hi3, hbc, hbk, hbv, hli, hseqlt, hcap⟩
      have hfne : f ≠ [] := by
        rw [hfe]
        intro hnil
        have hlf := length_frameOf ⟨n.last + 1, c⟩
        rw [hnil] at hlf
        simp only [List.length_nil] at hlf
        omega
      have happ := Append_ok n.wal ⟨n.last + 1, c⟩ f hcl hbuf hE hfne
      rcases hAe : (Store.Apply n.store c (n.last + 1)).err with _ | e
      · have hexec : n.Exec c
            = ((Store.Apply n.store c (n.last + 1)).res,
               ⟨⟨n.wal.file ++ f, n.wal.offset + f.length, [], false⟩,
                (Store.Apply n.store c (n.last + 1)).st, n.last + 1⟩, none) := by
          unfold Node.Exec
          rw [if_neg hpeek, if_neg (not_not_intro hv)]
          simp only [happ, hAe]
        have hchar := Apply_ok_char n.store c (n.last + 1) hd hseq (by omega) hAe
        refine ⟨hrfo, rfl, ?_, ?_⟩
        · rw [hexec, hfe]
        · rw [hexec]
          exact ⟨hchar.2, rfl, rfl, by simpa using hchar.1⟩
      · have hexec : (n.Exec c).2.2 = some (.apply e) := by
          unfold Node.Exec
          rw [if_neg hpeek, if_neg (not_not_intro hv)]
          simp only [happ, hAe]
        have hcontra := hexec.symm.trans hok
        simp at hcontra
  · unfold Node.Exec at hok
    rw [if_neg hpeek, if_pos (show ¬ (validType c.Instruct = true) by simpa using hv)] at hok
    simp at hok

theorem execAll_cons (n : Node) (c : Command) (rest : List Command) :
    execAll n (c :: rest)
      = ((execAll (n.Exec c).2.1 rest).1,
         (n.Exec c).2.2.isNone && (execAll (n.Exec c).2.1 rest).2) := by
  rcases hp : n.Exec c with ⟨r, n', e⟩
  simp only [execAll, hp]

theorem execAll_ok (cmds : List Command) : ∀ (n : Node),
    (∀ c ∈ cmds, wfCommand c) → nodeInv n → n.last + cmds.length < 2 ^ 64 →
    (execAll n cmds).2 = true →
    (execAll n cmds).1.wal.file = n.wal.file ++ framesConcat (recsOf n.last cmds) ∧
    (execAll n cmds).1.store = applyFold n.store (recsOf n.last cmds) ∧
    (execAll n cmds).1.last = n.last + cmds.length ∧
    nodeInv (execAll n cmds).1 ∧
    (∀ r ∈ recsOf n.last cmds, recFrameOk r) ∧
    applyAll n.store (recsOf n.last cmds) = .ok (applyFold n.store (recsOf n.last cmds)) := by
  induction cmds with
  | nil =>
    intro n hwf hinv hlt hok
    refine ⟨by simp [execAll, recsOf, framesConcat], by simp [execAll, recsOf, applyFold],
      by simp [execAll], by simpa [execAll] using hinv, by simp [recsOf],
      by simp [recsOf, applyFold, applyAll]⟩
  | cons c rest ih =>
    intro n hwf hinv hlt hok
    rw [execAll_cons] at hok
    rw [Bool.and_eq_true, Option.isNone_iff_eq_none] at hok
    obtain ⟨hee, hrest⟩ := hok
    have hstep := Exec_ok_step n c hinv (hwf c (by simp)) (by simp at hlt; omega) hee
    obtain ⟨hrfo, hAok, hn', hinv'⟩ := hstep
    have hn'w : (n.Exec c).2.1.wal.file = n.wal.file ++ frameOf ⟨n.last + 1, c⟩ := by
      rw [hn']
    have hn's : (n.Exec c).2.1.store = (Store.Apply n.store c (n.last + 1)).st := by
      rw [hn']
    have hn'l : (n.Exec c).2.1.last = n.last + 1 := by rw [hn']
    have ihres := ih (n.Exec c).2.1 (fun x hx => hwf x (by simp [hx])) hinv'
      (by rw [hn'l]; simp at hlt; omega) hrest
    obtain ⟨ihfile, ihstore, ihlast, ihinv, ihrfo, ihapply⟩ := ihres
    rw [hn'l] at ihfile ihstore ihlast ihrfo ihapply
    have hrecs : recsOf n.last (c :: rest) = ⟨n.last + 1, c⟩ :: recsOf (n.last + 1) rest :=
      rfl
    refine ⟨?_, ?_, ?_, ?_, ?_, ?_⟩
    · rw [execAll_cons]
      simp only [ihfile, hn'w, hrecs, framesConcat, List.append_assoc]
    · rw [execAll_cons]
      simp only [ihstore, hn's, hrecs]
      rfl
    · rw [execAll_cons]
      simp only [ihlast, hn'l]
      simp
      omega
    · rw [execAll_cons]
      exact ihinv
    · intro r hr
      rw [hrecs] at hr
      rcases List.mem_cons.mp hr with hr1 | hr2
      · rw [hr1]
        exact hrfo
      · exact ihrfo r hr2
    · rw [hrecs]
      rw [applyAll_cons_ok n.store ⟨n.last + 1, c⟩ (recsOf (n.last + 1) rest) hAok]
      rw [hn's] at ihapply
      rw [ihapply]
      rfl

theorem Close_char (w : WALState) (hc : w.closed = false) :
    WAL.Close w = .ok ⟨w.file ++ w.buf, w.offset, [], true⟩ := by
  obtain ⟨file, offset, buf, closed⟩ := w
  simp only at hc
  subst hc
  by_cases hb : buf = ([] : List Nat)
  · subst hb
    have h1 : bwFlush ⟨file, offset, [], false⟩ = .ok ⟨file, offset, [], false⟩ := by
      unfold bwFlush
      rw [if_pos rfl]
    have h2 : fSync ⟨file, offset, [], false⟩ = .ok ⟨file, offset, [], false⟩ := by
      unfold fSync
      rw [if_neg (by simp)]
    unfold WAL.Close
    simp only [h1, h2]
    rw [if_neg (by simp)]
    simp
  · have h1 : bwFlush ⟨file, offset, buf, false⟩ = .ok ⟨file ++ buf, offset, [], false⟩ := by
      unfold bwFlush
      rw [if_neg hb, if_neg (by simp)]
    have h2 : fSync ⟨file ++ buf, offset, [], false⟩ = .ok ⟨file ++ buf, offset, [], false⟩ := by
      unfold fSync
      rw [if_neg (by simp)]
    unfold WAL.Close
    simp only [h1, h2]
    rw [if_neg (by simp)]

theorem Close_closed_fails (w : WALState) (hb : w.buf = []) (hc : w.closed = true) :
    WAL.Close w = .error .fileClosed := by
  have h1 : bwFlush w = .ok w := by
    unfold bwFlush
    rw [if_pos hb]
  have h2 : fSync w = .error .fileClosed := by
    unfold fSync
    rw [if_pos hc]
  unfold WAL.Close
  simp only [h1, h2]

theorem lastIdxOf_recsOf (base : Nat) (cmds : List Command) :
    lastIdxOf base (recsOf base cmds) = base + cmds.length := by
  induction cmds generalizing base with
  | nil => simp [recsOf, lastIdxOf]
  | cons c rest ih =>
    have h1 : lastIdxOf base (recsOf base (c :: rest))
        = lastIdxOf (base + 1) (recsOf (base + 1) rest) := rfl
    rw [h1, ih (base + 1)]
    simp
    omega

theorem OpenNode_clean (recs : List Record) (h : ∀ r ∈ recs, recFrameOk r)
    (happ : applyAll NewStore recs = .ok (applyFold NewStore recs)) :
    OpenNode (walHeader ++ framesConcat recs)
      = .ok ⟨⟨walHeader ++ framesConcat recs, (walHeader ++ framesConcat recs).length,
          [], false⟩, applyFold NewStore recs, lastIdxOf 0 recs⟩ := by
  have hW : NewWAL (walHeader ++ framesConcat recs)
      = .ok ⟨walHeader ++ framesConcat recs,
          (walHeader ++ framesConcat recs).length, [], false⟩ := by
    unfold NewWAL
    rw [if_neg (by simp [walHeader]), if_neg (by simp [walHeader]),
      if_neg (by rw [List.take_left' (show walHeader.length = 9 from rfl)]; simp)]
  unfold OpenNode
  simp only [hW]
  have hR := ReplayAll_clean recs
    ⟨walHeader ++ framesConcat recs, (walHeader ++ framesConcat recs).length, [], false⟩
    rfl h
  simp only [hR, happ]

theorem OpenNode_replay_error (recs : List Record) (e : ApplyErr)
    (h : ∀ r ∈ recs, recFrameOk r) (happ : applyAll NewStore recs = .error e) :
    OpenNode (walHeader ++ framesConcat recs) = .error (.replayApply e) := by
  have hW : NewWAL (walHeader ++ framesConcat recs)
      = .ok ⟨walHeader ++ framesConcat recs,
          (walHeader ++ framesConcat recs).length, [], false⟩ := by
    unfold NewWAL
    rw [if_neg (by simp [walHeader]), if_neg (by simp [walHeader]),
      if_neg (by rw [List.take_left' (show walHeader.length = 9 from rfl)]; simp)]
  unfold OpenNode
  simp only [hW]
  have hR := ReplayAll_clean recs
    ⟨walHeader ++ framesConcat recs, (walHeader ++ framesConcat recs).length, [], false⟩
    rfl h
  simp only [hR, happ]

theorem ReplayAll_short_tail (recs : List Record) (junk : List Nat) (w : WALState)
    (hfile : w.file = walHeader ++ (framesConcat recs ++ junk))
    (h : ∀ r ∈ recs, recFrameOk r) (hj : 0 < junk.length) (hj4 : junk.length < 4) :
    WAL.ReplayAll w
      = (recs, lastIdxOf 0 recs,
         ⟨w.file, (walHeader ++ framesConcat recs).length, [], w.closed⟩) := by
  have hloop : replayLoop w.file 9 [] 0
      = (recs, lastIdxOf 0 recs, false, (walHeader ++ framesConcat recs).length) := by
    rw [hfile]
    have h9 : (9 : Nat) = walHeader.length := rfl
    rw [h9]
    rw [replayLoop_skip_frames recs walHeader junk [] 0 h]
    have hoff : walHeader.length + (framesConcat recs).length
        = (walHeader ++ framesConcat recs).length := by simp
    rw [hoff]
    rw [replayLoop_eof _ _ _ _ (by simp; omega)]
    simp only [List.nil_append]
  unfold WAL.ReplayAll
  simp only [hloop]

/-! ## Claim theorems -/

/-- C10: `Decode` is total on arbitrary input: for every byte string
given as payload it returns a decoded `Record` or a (parse) error and
never performs an out-of-range slice or index access — every field
read is preceded by a `need()` bounds check.  Go slice/index
expressions are modelled by `sliceP` / `elemP`, which return the
distinguished error `DecodeErr.outOfRange` exactly when Go would
panic; `Decode` can never produce it. -/
theorem decode_never_out_of_range (payload : List Nat) :
    Decode payload ≠ .error DecodeErr.outOfRange :=
  Decode_no_oor payload

/-- C2: FAILS on the code.  After a successful non-duplicate
`Store.Apply` the store does set `lastApplied` to the log index, but it
never writes the dedup entry — all three success branches carry the
`== TODO: ADD DEDUP UPDATE ====` comment instead of the update.  At the
failing input, `Apply` of `Put(client="a", seq=1)` at index 1 succeeds
and leaves `dedupMap` empty, and re-submitting the same
`(clientId, seq)` pair at index 2 is applied a second time. -/
theorem apply_never_updates_dedup :
    (Store.Apply NewStore putCmdA 1).err = none ∧
    (Store.Apply NewStore putCmdA 1).res.Success = true ∧
    (Store.Apply NewStore putCmdA 1).st.lastlogi = 1 ∧
    (Store.Apply NewStore putCmdA 1).st.dedupMap = [] ∧
    (Store.Apply (Store.Apply NewStore putCmdA 1).st putCmdA 2).err = none ∧
    (Store.Apply (Store.Apply NewStore putCmdA 1).st putCmdA 2).st.lastlogi = 2 := by
  decide

/-- C3 counterexample: `Store.Apply` of a Delete whose key is absent
returns a non-nil error (the claim says it returns without error), and
records nothing in the dedup table. -/
theorem delete_missing_returns_error :
    (Store.Apply NewStore delMissCmd 1).err = some ApplyErr.nothingToDelete ∧
    (Store.Apply NewStore delMissCmd 1).res = ⟨false, [], 1⟩ ∧
    (Store.Apply NewStore delMissCmd 1).st = NewStore := by
  decide

/-- C3 (amended): `Store.Apply` of a Delete command whose key is absent
from `kv` returns the error "value at key in store is already empty;
nothing to delete" together with a result with `Success = false` and
empty `PrevValue`; the store (including the dedup table) is unchanged,
so nothing is recorded for a replayed delete. -/
theorem delete_missing_apply (s : Store) (cmd : Command) (li : Nat)
    (hli : li = s.lastlogi + 1)
    (hseq : (dedupGet s.dedupMap cmd.ClientID).seq < cmd.Seq)
    (hdel : cmd.Instruct = CmdDelete) (hmiss : kvGet s.kv cmd.Key = none) :
    Store.Apply s cmd li = ⟨⟨false, [], li⟩, s, some .nothingToDelete⟩ := by
  unfold Store.Apply
  rw [if_neg (by omega), if_neg (by omega),
    if_neg (by rw [hdel]; simp [CmdPut, CmdDelete]), if_pos hdel]
  simp only [hmiss]

/-- Witness for `delete_missing_apply` at a fresh store. -/
theorem delete_missing_apply_witness :
    ((1 : Nat) = NewStore.lastlogi + 1 ∧
     (dedupGet NewStore.dedupMap delMissCmd.ClientID).seq < delMissCmd.Seq ∧
     delMissCmd.Instruct = CmdDelete ∧ kvGet NewStore.kv delMissCmd.Key = none) ∧
    Store.Apply NewStore delMissCmd 1 = ⟨⟨false, [], 1⟩, NewStore, some .nothingToDelete⟩ :=
  ⟨⟨by decide, by decide, by decide, by decide⟩,
   delete_missing_apply NewStore delMissCmd 1 (by decide) (by decide) (by decide) (by decide)⟩

/-- C4: FAILS on the cited code.  In `src/cmd/apply.go` the duplicate
path returns `s.dedupMap[string(cmd.Key)].result` — looked up by the
command KEY — instead of `s.dedupMap[cmd.ClientID].result`.  At the
failing input, client `"c"` has a stored dedup entry with result
`⟨true, [7], 3⟩`, the duplicate command (`seq 4 ≤ lastSeq 5`) arrives
with key `"k"` that has no entry, and the legacy `Apply` returns the
zero `ApplyResult` rather than the client's stored result (the newer
snapshot `src/unnamed/part_005` returns the right one); neither path
mutates the store. -/
theorem legacy_duplicate_path_uses_key :
    (Store.applyLegacy c4Store c4Cmd 1).err = none ∧
    (Store.applyLegacy c4Store c4Cmd 1).res = zeroResult ∧
    (dedupGet c4Store.dedupMap c4Cmd.ClientID).result = ⟨true, [7], 3⟩ ∧
    (Store.applyLegacy c4Store c4Cmd 1).res
      ≠ (dedupGet c4Store.dedupMap c4Cmd.ClientID).result ∧
    (Store.applyLegacy c4Store c4Cmd 1).st = c4Store ∧
    (Store.Apply c4Store c4Cmd 1).res = ⟨true, [7], 3⟩ ∧
    (Store.Apply c4Store c4Cmd 1).st = c4Store := by
  decide

/-- C9 counterexample: closing an already-closed WAL does NOT return
success.  The first `Close` of a fresh WAL succeeds; a second `Close`
fails (`bufio.Flush` of the empty buffer is a no-op, but `f.Sync()` on
the closed file returns `os.ErrClosed`), and so does `Node.Close` on a
node holding a closed WAL. -/
theorem wal_close_twice_errors :
    (WAL.Close ⟨walHeader, 9, [], false⟩).isOk = true ∧
    (WAL.Close ⟨walHeader, 9, [], false⟩).bind WAL.Close = .error WalErr.fileClosed ∧
    Node.Close ⟨⟨walHeader, 9, [], true⟩, NewStore, 0⟩ = .error WalErr.fileClosed := by
  decide

/-- C9 (amended): `WAL.Close` on an open log flushes the buffer into
the file and closes it successfully; calling `Close` again on the
already-closed log returns an error (`os.ErrClosed` from `Sync`), and
`Node.Close` on a node holding that closed WAL returns the same error —
`Close` is NOT idempotent. -/
theorem close_once_ok_twice_fails (w : WALState) (hc : w.closed = false) :
    WAL.Close w = .ok ⟨w.file ++ w.buf, w.offset, [], true⟩ ∧
    ∀ w', WAL.Close w = .ok w' →
      WAL.Close w' = .error .fileClosed ∧
      ∀ n : Node, n.wal = w' → n.Close = .error .fileClosed := by
  have h1 := Close_char w hc
  refine ⟨h1, ?_⟩
  intro w' hw'
  rw [h1] at hw'
  simp only [Except.ok.injEq] at hw'
  subst hw'
  have h2 : WAL.Close ⟨w.file ++ w.buf, w.offset, [], true⟩ = .error .fileClosed :=
    Close_closed_fails _ rfl rfl
  refine ⟨h2, ?_⟩
  intro n hn
  unfold Node.Close
  rw [hn]
  simp only [h2]

/-- Witness for `close_once_ok_twice_fails` on a freshly-created WAL. -/
theorem close_once_ok_twice_fails_witness :
    (⟨walHeader, 9, [], false⟩ : WALState).closed = false ∧
    (WAL.Close ⟨walHeader, 9, [], false⟩ = .ok ⟨walHeader ++ [], 9, [], true⟩ ∧
     ∀ w', WAL.Close ⟨walHeader, 9, [], false⟩ = .ok w' →
       WAL.Close w' = .error .fileClosed ∧
       ∀ n : Node, n.wal = w' → n.Close = .error .fileClosed) :=
  ⟨rfl, close_once_ok_twice_fails ⟨walHeader, 9, [], false⟩ rfl⟩

/-- C7 counterexample: with a value of length `2 ^ 32 - 30` (allowed by
`Encode`, which admits values up to `2 ^ 32 - 1`), the payload has
length `2 ^ 32 - 4` and the `uint32` conversion in
`frameLen := uint32(4 + len(enc))` wraps: the emitted `frameLen` field
holds `0`, not `4 + len(payload) = 2 ^ 32`. -/
theorem encode_frameLen_wraps :
    Encode bigValRec = .ok (frameOf bigValRec) ∧
    beToNat ((frameOf bigValRec).take 4) = 0 ∧
    4 + (encPayload bigValRec).length = 2 ^ 32 := by
  have hc : bigValRec.Cmd.ClientID.length = 1 := rfl
  have hk : bigValRec.Cmd.Key.length = 1 := rfl
  have hv : bigValRec.Cmd.Value.length = 2 ^ 32 - 30 := by
    rw [show bigValRec.Cmd.Value = List.replicate (2 ^ 32 - 30) 0 from rfl,
      List.length_replicate]
  have hlen : (encPayload bigValRec).length = 2 ^ 32 - 4 := by
    rw [length_encPayload, hc, hk, hv]
    norm_num
  have hfl : frameLenOf bigValRec = 0 := by
    rw [frameLenOf, hlen]
    norm_num
  refine ⟨?_, ?_, ?_⟩
  · exact encode_eq_ok _ (Or.inl rfl) (by rw [hc]; norm_num) (by rw [hk]; norm_num)
      (by rw [hv]; norm_num)
  · unfold frameOf
    rw [List.append_assoc, List.take_left' (length_beBytes 4 _), hfl]
    decide
  · rw [hlen]
    norm_num

/-- C7 (amended): for every `Record` with a valid instruction,
`clientId ≤ 255` bytes, `key ≤ 65535` bytes, `value ≤ 2 ^ 32 - 1` bytes
and `uint64`-ranged `logIndex` and `seq`, `Encode` succeeds and
produces `[u32 frameLen BE][u32 crc32 BE][payload]` where the
`frameLen` field holds `(4 + len(payload)) % 2 ^ 32` (the Go `uint32`
conversion wraps; it equals `4 + len(payload)` whenever that is below
`2 ^ 32`), `crc32` is IEEE CRC-32 over the payload only, and `Decode`
of the payload returns the original record. -/
theorem encode_decode_roundtrip (rec : Record)
    (h1 : rec.Cmd.Instruct = CmdPut ∨ rec.Cmd.Instruct = CmdDelete)
    (h2 : rec.Cmd.ClientID.length ≤ 255)
    (h3 : rec.Cmd.Key.length ≤ 65535)
    (h4 : rec.Cmd.Value.length ≤ 2 ^ 32 - 1)
    (h5 : rec.LogIndex < 2 ^ 64)
    (h6 : rec.Cmd.Seq < 2 ^ 64) :
    Encode rec = .ok (beBytes 4 ((4 + (encPayload rec).length) % 2 ^ 32)
      ++ beBytes 4 (crc32 (encPayload rec)) ++ encPayload rec) ∧
    Decode (encPayload rec) = .ok rec := by
  constructor
  · have h := encode_eq_ok rec h1 h2 h3 (by omega)
    rw [h]
    rfl
  · exact Decode_encPayload rec h1 h2 h3 (by omega) h5 h6

/-- Witness for `encode_decode_roundtrip` at
`Put(client="a", seq=1, key="k", value="v")`, log index 1. -/
theorem encode_decode_roundtrip_witness :
    ((recPutA.Cmd.Instruct = CmdPut ∨ recPutA.Cmd.Instruct = CmdDelete) ∧
     recPutA.Cmd.ClientID.length ≤ 255 ∧ recPutA.Cmd.Key.length ≤ 65535 ∧
     recPutA.Cmd.Value.length ≤ 2 ^ 32 - 1 ∧ recPutA.LogIndex < 2 ^ 64 ∧
     recPutA.Cmd.Seq < 2 ^ 64) ∧
    (Encode recPutA = .ok (beBytes 4 ((4 + (encPayload recPutA).length) % 2 ^ 32)
        ++ beBytes 4 (crc32 (encPayload recPutA)) ++ encPayload recPutA) ∧
     Decode (encPayload recPutA) = .ok recPutA) :=
  ⟨⟨by decide, by decide, by decide, by decide, by decide, by decide⟩,
   encode_decode_roundtrip recPutA (by decide) (by decide) (by decide) (by decide)
     (by decide) (by decide)⟩

/-- C8 counterexample: a record with a `2 ^ 30`-byte value passes every
`Encode` validation (values up to `2 ^ 32 - 1` are allowed), yet its
emitted `frameLen` is `2 ^ 30 + 30 > 2 ^ 30`, which replay's sanity
check rejects as corrupt. -/
theorem encode_frameLen_exceeds_cap :
    Encode bigValRec8 = .ok (frameOf bigValRec8) ∧
    beToNat ((frameOf bigValRec8).take 4) = 2 ^ 30 + 30 ∧
    2 ^ 30 < 2 ^ 30 + 30 := by
  have hc : bigValRec8.Cmd.ClientID.length = 1 := rfl
  have hk : bigValRec8.Cmd.Key.length = 1 := rfl
  have hv : bigValRec8.Cmd.Value.length = 2 ^ 30 := by
    rw [show bigValRec8.Cmd.Value = List.replicate (2 ^ 30) 0 from rfl,
      List.length_replicate]
  have hlen : (encPayload bigValRec8).length = 2 ^ 30 + 26 := by
    rw [length_encPayload, hc, hk, hv]
    norm_num
  have hfl : frameLenOf bigValRec8 = 2 ^ 30 + 30 := by
    rw [frameLenOf, hlen]
    norm_num
  refine ⟨?_, ?_, by norm_num⟩
  · exact encode_eq_ok _ (Or.inl rfl) (by rw [hc]; norm_num) (by rw [hk]; norm_num)
      (by rw [hv]; norm_num)
  · unfold frameOf
    rw [List.append_assoc, List.take_left' (length_beBytes 4 _), hfl]
    apply beToNat_beBytes_of_lt
    norm_num

/-- C8 (amended): for every `Record` that passes `Encode` validation
AND whose total frame length fits the replay cap
(`28 + |clientId| + |key| + |value| ≤ 2 ^ 30`), the emitted frame's
`frameLen` field satisfies `4 ≤ frameLen ≤ 2 ^ 30`, so the frame passes
replay's frame-length sanity check.  (Without the extra cap the claim
is false: see `encode_frameLen_exceeds_cap`.) -/
theorem frameLen_sanity_under_cap (rec : Record)
    (h1 : rec.Cmd.Instruct = CmdPut ∨ rec.Cmd.Instruct = CmdDelete)
    (h2 : rec.Cmd.ClientID.length ≤ 255)
    (h3 : rec.Cmd.Key.length ≤ 65535)
    (hcap : 28 + rec.Cmd.ClientID.length + rec.Cmd.Key.length + rec.Cmd.Value.length
      ≤ 2 ^ 30) :
    Encode rec = .ok (frameOf rec) ∧
    4 ≤ beToNat ((frameOf rec).take 4) ∧ beToNat ((frameOf rec).take 4) ≤ 2 ^ 30 := by
  have henc := encode_eq_ok rec h1 h2 h3 (by omega)
  have hval : beToNat ((frameOf rec).take 4) = frameLenOf rec := by
    unfold frameOf
    rw [List.append_assoc, List.take_left' (length_beBytes 4 _)]
    apply beToNat_beBytes_of_lt
    rw [frameLenOf_eq rec hcap]
    have : (2 : Nat) ^ 30 < 256 ^ 4 := by norm_num
    omega
  rw [hval, frameLenOf_eq rec hcap]
  exact ⟨henc, by omega, hcap⟩

/-- Witness for `frameLen_sanity_under_cap` at
`Put(client="a", seq=1, key="k", value="v")`, log index 1. -/
theorem frameLen_sanity_under_cap_witness :
    ((recPutA.Cmd.Instruct = CmdPut ∨ recPutA.Cmd.Instruct = CmdDelete) ∧
     recPutA.Cmd.ClientID.length ≤ 255 ∧ recPutA.Cmd.Key.length ≤ 65535 ∧
     28 + recPutA.Cmd.ClientID.length + recPutA.Cmd.Key.length
       + recPutA.Cmd.Value.length ≤ 2 ^ 30) ∧
    (Encode recPutA = .ok (frameOf recPutA) ∧
     4 ≤ beToNat ((frameOf recPutA).take 4) ∧
     beToNat ((frameOf recPutA).take 4) ≤ 2 ^ 30) :=
  ⟨⟨by decide, by decide, by decide, by decide⟩,
   frameLen_sanity_under_cap recPutA (by decide) (by decide) (by decide) (by decide)⟩

/-- C5 (code bug): a 1–3-byte tail after the last good frame does NOT
trigger repair.  `os.File.ReadAt` returns a non-nil error (`io.EOF`)
whenever it reads fewer than 4 bytes, so `readFrameAt`'s `err != nil`
branch catches every short `frameLen` read and maps it to `io.EOF`; the
source's later `n < 4 ⇒ io.ErrUnexpectedEOF` branch is unreachable.
Replay therefore treats the torn tail as a clean end of log:
`repairNeeded` stays false, the file is NOT truncated (it remains
strictly longer than the good prefix), and only `tailOffset` and the
writer are reset to the end of the last good frame. -/
theorem short_tail_kept_without_repair (recs : List Record) (junk : List Nat)
    (w : WALState) (hfile : w.file = walHeader ++ (framesConcat recs ++ junk))
    (h : ∀ r ∈ recs, recFrameOk r) (hj : 0 < junk.length) (hj4 : junk.length < 4) :
    WAL.ReplayAll w
      = (recs, lastIdxOf 0 recs,
         ⟨w.file, (walHeader ++ framesConcat recs).length, [], w.closed⟩) ∧
    (walHeader ++ framesConcat recs).length < w.file.length := by
  refine ⟨ReplayAll_short_tail recs junk w hfile h hj hj4, ?_⟩
  rw [hfile]
  simp only [List.length_append]
  omega

/-- Witness for `short_tail_kept_without_repair`: one good `Put` frame
followed by the 3 torn bytes `[1, 2, 3]`. -/
theorem short_tail_kept_without_repair_witness :
    (shortTailWal.file = walHeader ++ (framesConcat [recPutA] ++ [1, 2, 3]) ∧
     (∀ r ∈ [recPutA], recFrameOk r) ∧ 0 < ([1, 2, 3] : List Nat).length ∧
     ([1, 2, 3] : List Nat).length < 4) ∧
    (WAL.ReplayAll shortTailWal
        = ([recPutA], lastIdxOf 0 [recPutA],
           ⟨shortTailWal.file, (walHeader ++ framesConcat [recPutA]).length, [],
            shortTailWal.closed⟩) ∧
     (walHeader ++ framesConcat [recPutA]).length < shortTailWal.file.length) :=
  ⟨⟨rfl, by decide, by decide, by decide⟩,
   short_tail_kept_without_repair [recPutA] [1, 2, 3] shortTailWal rfl (by decide)
     (by decide) (by decide)⟩

/-- C6: corrupt-tail recovery.  For any log made of well-formed frames
whose LAST frame has one bit flipped anywhere in its CRC field or its
payload, `ReplayAll` detects the CRC mismatch, discards that frame,
returns exactly the records of all prior frames, and truncates the
file to the end of the last good frame. -/
theorem bitflip_last_frame_discarded (recs : List Record) (rec : Record) (k j : Nat)
    (w : WALState)
    (hfile : w.file = walHeader ++ (framesConcat recs ++ corruptFrame rec k j))
    (h : ∀ r ∈ recs, recFrameOk r) (hlast : recFrameOk rec)
    (hk : k < 4 + (encPayload rec).length) (hj : j < 8) :
    WAL.ReplayAll w
      = (recs, lastIdxOf 0 recs,
         ⟨walHeader ++ framesConcat recs, (walHeader ++ framesConcat recs).length,
          [], w.closed⟩) :=
  ReplayAll_corrupt recs rec k j w hfile h hlast hk hj

/-- Witness for `bitflip_last_frame_discarded`: one good `Put` frame,
then a `Delete` frame with bit 0 of body byte 4 (the first payload
byte) flipped. -/
theorem bitflip_last_frame_discarded_witness :
    (corruptWitnessWal.file
        = walHeader ++ (framesConcat [recPutA] ++ corruptFrame recDelB 4 0) ∧
     (∀ r ∈ [recPutA], recFrameOk r) ∧ recFrameOk recDelB ∧
     4 < 4 + (encPayload recDelB).length ∧ 0 < 8) ∧
    WAL.ReplayAll corruptWitnessWal
      = ([recPutA], lastIdxOf 0 [recPutA],
         ⟨walHeader ++ framesConcat [recPutA],
          (walHeader ++ framesConcat [recPutA]).length, [],
          corruptWitnessWal.closed⟩) :=
  ⟨⟨rfl, by decide, by decide, by decide, by decide⟩,
   bitflip_last_frame_discarded [recPutA] recDelB 4 0 corruptWitnessWal rfl
     (by decide) (by decide) (by decide) (by decide)⟩

/-- C1 counterexample: the durability round-trip fails for a valid
command sequence.  `Delete client="c" seq=1 key="x"` is a valid
command, but on a fresh node `Exec` journals its record BEFORE
`Store.Apply` rejects the delete of the missing key, so the frame is
durable while the in-memory apply failed.  `Close` succeeds; reopening
on the written file replays the frame, the replayed `Apply` fails with
the same "nothing to delete" error, and `OpenNode` returns an error
instead of a node — the reopened `kv` mapping does not even exist. -/
theorem exec_delete_missing_breaks_roundtrip :
    wfCommand delMissCmd ∧
    (execAll freshNode [delMissCmd]).2 = false ∧
    Node.Close (execAll freshNode [delMissCmd]).1
      = .ok ⟨⟨walHeader ++ framesConcat [⟨1, delMissCmd⟩],
              9 + (frameOf ⟨1, delMissCmd⟩).length, [], true⟩, NewStore, 0⟩ ∧
    OpenNode (walHeader ++ framesConcat [⟨1, delMissCmd⟩])
      = .error (.replayApply .nothingToDelete) := by
  refine ⟨by decide, by decide, by decide, ?_⟩
  exact OpenNode_replay_error [⟨1, delMissCmd⟩] .nothingToDelete (by decide) (by decide)

/-- C1 (amended): durability round-trip for sequences on which every
`Exec` succeeds, RESTRICTED to commands whose frames fit the replay
sanity cap.  Starting from a fresh node, after any sequence of fewer
than `2 ^ 64` valid commands (nonzero `uint64` seq, byte-string
contents) each satisfying the frame-size cap
`28 + |clientId| + |key| + |value| ≤ 2 ^ 30` (`wfCommand`) and each of
which `Exec` applied without error, `Close` succeeds, and `OpenNode` on
the written file yields a node whose store has the same `kv` mapping
and the same `lastApplied` counter as the in-memory store at close
time, and whose `last` index equals the last log index assigned before
close.  The cap cannot be dropped: a Put with a `2 ^ 30`-byte value
passes every `Exec` check (`Encode` admits values up to `2 ^ 32 − 1`
bytes) yet its frame's `frameLen` is `2 ^ 30 + 30 > 2 ^ 30`, so replay
rejects it as corrupt on reopen and the recovered `kv` would no longer
match the close-time `kv`. -/
theorem exec_close_reopen_roundtrip (cmds : List Command)
    (hwf : ∀ c ∈ cmds, wfCommand c) (hlen : cmds.length < 2 ^ 64)
    (hok : (execAll freshNode cmds).2 = true) :
    ∃ nc, Node.Close (execAll freshNode cmds).1 = .ok nc ∧
      ∃ m, OpenNode nc.wal.file = .ok m ∧
        m.store.kv = (execAll freshNode cmds).1.store.kv ∧
        m.store.lastlogi = (execAll freshNode cmds).1.store.lastlogi ∧
        m.last = (execAll freshNode cmds).1.last := by
  have hlt : freshNode.last + cmds.length < 2 ^ 64 := by
    have h0 : freshNode.last = 0 := rfl
    omega
  obtain ⟨hfile, hstore, hlast, hinv, hfr, happ⟩ :=
    execAll_ok cmds freshNode hwf ⟨rfl, rfl, rfl, rfl⟩ hlt hok
  obtain ⟨hdk, hcl, hbuf, hll⟩ := hinv
  have hfile' : (execAll freshNode cmds).1.wal.file
      = walHeader ++ framesConcat (recsOf 0 cmds) := hfile
  have hstore' : (execAll freshNode cmds).1.store
      = applyFold NewStore (recsOf 0 cmds) := hstore
  have hlast' : (execAll freshNode cmds).1.last = 0 + cmds.length := hlast
  have hfr' : ∀ r ∈ recsOf 0 cmds, recFrameOk r := hfr
  have happ' : applyAll NewStore (recsOf 0 cmds)
      = .ok (applyFold NewStore (recsOf 0 cmds)) := happ
  have hC : WAL.Close (execAll freshNode cmds).1.wal
      = .ok ⟨(execAll freshNode cmds).1.wal.file ++ (execAll freshNode cmds).1.wal.buf,
             (execAll freshNode cmds).1.wal.offset, [], true⟩ :=
    Close_char _ hcl
  have hNC : Node.Close (execAll freshNode cmds).1
      = .ok ⟨⟨(execAll freshNode cmds).1.wal.file ++ (execAll freshNode cmds).1.wal.buf,
              (execAll freshNode cmds).1.wal.offset, [], true⟩,
             (execAll freshNode cmds).1.store, (execAll freshNode cmds).1.last⟩ := by
    unfold Node.Close
    rw [hC]
  refine ⟨_, hNC, ?_⟩
  have hwf2 : (⟨⟨(execAll freshNode cmds).1.wal.file ++ (execAll freshNode cmds).1.wal.buf,
      (execAll freshNode cmds).1.wal.offset, [], true⟩,
      (execAll freshNode cmds).1.store, (execAll freshNode cmds).1.last⟩ : Node).wal.file
      = walHeader ++ framesConcat (recsOf 0 cmds) := by
    show (execAll freshNode cmds).1.wal.file ++ (execAll freshNode cmds).1.wal.buf
        = walHeader ++ framesConcat (recsOf 0 cmds)
    rw [hbuf, List.append_nil, hfile']
  rw [hwf2, OpenNode_clean (recsOf 0 cmds) hfr' happ']
  refine ⟨_, rfl, ?_, ?_, ?_⟩
  · show (applyFold NewStore (recsOf 0 cmds)).kv = (execAll freshNode cmds).1.store.kv
    rw [hstore']
  · show (applyFold NewStore (recsOf 0 cmds)).lastlogi
        = (execAll freshNode cmds).1.store.lastlogi
    rw [hstore']
  · show lastIdxOf 0 (recsOf 0 cmds) = (execAll freshNode cmds).1.last
    rw [lastIdxOf_recsOf, hlast']

/-- Witness for `exec_close_reopen_roundtrip` on the single command
`Put client="a" seq=1 key="k" value="v"`. -/
theorem exec_close_reopen_roundtrip_witness :
    ((∀ c ∈ [putCmdA], wfCommand c) ∧ ([putCmdA] : List Command).length < 2 ^ 64 ∧
     (execAll freshNode [putCmdA]).2 = true) ∧
    (∃ nc, Node.Close (execAll freshNode [putCmdA]).1 = .ok nc ∧
      ∃ m, OpenNode nc.wal.file = .ok m ∧
        m.store.kv = (execAll freshNode [putCmdA]).1.store.kv ∧
        m.store.lastlogi = (execAll freshNode [putCmdA]).1.store.lastlogi ∧
        m.last = (execAll freshNode [putCmdA]).1.last) :=
  ⟨⟨by decide, by decide, by decide⟩,
   exec_close_reopen_roundtrip [putCmdA] (by decide) (by decide) (by decide)⟩

end SixpathsKV
